import Mathlib

/-!
# ABL-Tool: block discovery and compressed-stream engine

Shallow embedding of `src/src/FvhParser.cpp` (`FvhParser::findBlocks`,
`FvhParser::findLzmaStream`, `tryDecode`, `FvhParser::decompress`,
`FvhParser::repack`) and the properties of it that the specification states.

Conventions of the embedding:

* a `QByteArray` is a `List Byte`; `qint64` values are `Int`, unsigned values are
  `Nat`, with an explicit `% 2 ^ w` where the source narrows;
* `std::memcpy` into an integer is a little-endian read (`leValue`);
* out-parameters of the source become components of the returned value;
* liblzma (decoder, encoder) is not part of the repository: it enters as a
  function parameter returning the status codes and the bytes produced;
* a read through a pointer that leaves its buffer yields the byte that the
  parameter `outside` holds for that offset; a write that leaves its buffer has
  no defined result (`none`).
-/

namespace AblTool

/-- One byte of a `QByteArray`. -/
abbrev Byte := Fin 256

/-- Little-endian value of a byte sequence: what `std::memcpy` of these bytes into a
zero-initialised unsigned integer of the same width yields. -/
def leValue : List Byte → Nat
  | [] => 0
  | b :: bs => b.val + 256 * leValue bs

/-- The `n` bytes of `d` that start at index `off` (fewer when `d` ends earlier). -/
def slice (d : List Byte) (off n : Nat) : List Byte := (d.drop off).take n

/-- Numeric value of the byte `d[i]`. -/
def byteAt (d : List Byte) (i : Nat) : Nat := (d.getD i 0).val

/-- The struct `FvhBlock` of `FvhParser.h`. -/
structure FvhBlock where
  fvhOffset : Int
  fvStart : Int
  fvSize : Nat
  lzmaOffset : Int
  lzmaSize : Int
  hasLzma : Bool
  raw : List Byte
deriving DecidableEq, Repr

/-- The struct `LzmaParams` of `FvhParser.h`. -/
structure LzmaParams where
  props : List Byte
  uncompSize : Nat
deriving DecidableEq, Repr

/-- The constant `UNKNOWN` of `findLzmaStream`: the all-ones 64-bit sentinel. -/
def UNKNOWN : Nat := 0xFFFFFFFFFFFFFFFF

/-- The number of values of `size_t` and of `quint64`: arithmetic in these types is
modulo `sizeRange`. -/
def sizeRange : Nat := 2 ^ 64

/-- The constant `MAX_DECOMP_SIZE`. -/
def MAX_DECOMP_SIZE : Nat := 256 * 1024 * 1024

/-! ## `FvhParser::findLzmaStream` -/

/-- One iteration of the scan loop of `findLzmaStream` at offset `i`: `false` when
one of the four `continue` statements is taken, `true` when the body reaches the
`return true`. -/
def headerAccepted (d : List Byte) (i : Nat) : Bool :=
  let props := byteAt d i
  if props > 224 then false else
  let lc := props % 9
  let rest := props / 9
  let lp := rest % 5
  let pb := rest / 5
  if pb > 4 ∨ lp > 4 ∨ lc > 8 then false else
  let dictSize := leValue (slice d (i + 1) 4)
  if dictSize < 4096 ∨ dictSize > 256 * 1024 * 1024 then false else
  let uncompSize := leValue (slice d (i + 5) 8)
  if uncompSize ≠ UNKNOWN ∧ uncompSize > 512 * 1024 * 1024 then false else
  true

/-- The loop `for (qint64 i = 0; i < sz - 13; ++i)`: `n` is the number of
iterations that remain, `i` the current offset; the result is the offset at which
the body returns. -/
def findLzmaLoop (d : List Byte) : Nat → Nat → Option Nat
  | 0, _ => none
  | n + 1, i => if headerAccepted d i then some i else findLzmaLoop d n (i + 1)

/-- What `findLzmaStream` reports when it returns `true`: the three
out-parameters. -/
structure LzmaFound where
  offsetOut : Int
  sizeOut : Int
  paramsOut : LzmaParams
deriving DecidableEq, Repr

/-- `FvhParser::findLzmaStream`: `none` is the return value `false` (the
out-parameters keep their values), `some r` is `true` with the out-parameters
set to `r`. The loop runs `sz - 13` times when `sz > 13` and not at all
otherwise. -/
def findLzmaStream (fvRaw : List Byte) : Option LzmaFound :=
  let sz := fvRaw.length
  match findLzmaLoop fvRaw (sz - 13) 0 with
  | none => none
  | some i =>
    some { offsetOut := (i : Int)
           sizeOut := (sz : Int) - (i : Int)
           paramsOut := { uncompSize := leValue (slice fvRaw (i + 5) 8)
                          props := slice fvRaw i 5 } }

/-- Valid header position as the specification words it: the 13 header bytes
`[i, i + 13)` lie inside the block and pass the three range checks. -/
def validHeaderPos (d : List Byte) (i : Nat) : Prop :=
  i + 13 ≤ d.length ∧ byteAt d i ≤ 224 ∧
  4096 ≤ leValue (slice d (i + 1) 4) ∧ leValue (slice d (i + 1) 4) ≤ 256 * 1024 * 1024 ∧
  (leValue (slice d (i + 5) 8) = UNKNOWN ∨ leValue (slice d (i + 5) 8) ≤ 512 * 1024 * 1024)

/-- Header position that the scan loop can accept: as `validHeaderPos`, and at
least one byte follows the 13 header bytes (`i < sz - 13`). -/
def scannedHeaderPos (d : List Byte) (i : Nat) : Prop :=
  i + 13 < d.length ∧ byteAt d i ≤ 224 ∧
  4096 ≤ leValue (slice d (i + 1) 4) ∧ leValue (slice d (i + 1) 4) ≤ 256 * 1024 * 1024 ∧
  (leValue (slice d (i + 5) 8) = UNKNOWN ∨ leValue (slice d (i + 5) 8) ≤ 512 * 1024 * 1024)

instance (d : List Byte) (i : Nat) : Decidable (validHeaderPos d i) := by
  unfold validHeaderPos; infer_instance

instance (d : List Byte) (i : Nat) : Decidable (scannedHeaderPos d i) := by
  unfold scannedHeaderPos; infer_instance

/-- A block that consists of exactly one 13-byte header: props `0x5D`, dictionary
size 1 MiB, declared size the all-ones sentinel. -/
def loneHeader : List Byte :=
  [0x5D, 0x00, 0x00, 0x10, 0x00, 0xFF, 0xFF, 0xFF, 0xFF, 0xFF, 0xFF, 0xFF, 0xFF]

/-! ## `FvhParser::findBlocks` -/

/-- The marker `"_FVH"` (`const QByteArray sig`). -/
def sig : List Byte := [0x5F, 0x46, 0x56, 0x48]

/-- Search loop of `QByteArray::indexOf`: `n` start positions remain to be tried,
`p` is the current one. -/
def indexOfLoop (data pat : List Byte) : Nat → Nat → Option Nat
  | 0, _ => none
  | n + 1, p => if slice data p pat.length = pat then some p else indexOfLoop data pat n (p + 1)

/-- `QByteArray::indexOf(pat, start)` (Qt library): the first index `p ≥ start` at
which `pat` occurs in `data`; `none` stands for the return value `-1`. The start
positions are `start, …, data.length - pat.length`. -/
def indexOf (data pat : List Byte) (start : Nat) : Option Nat :=
  indexOfLoop data pat (data.length + 1 - pat.length - start) start

/-- `QByteArray::mid(pos, len)` (Qt library) for `pos ≥ 0`: `len` bytes from
`pos`, fewer when the array ends earlier; a negative `len` means up to the end. -/
def mid (data : List Byte) (pos len : Int) : List Byte :=
  if len < 0 then data.drop pos.toNat else (data.drop pos.toNat).take len.toNat

/-- The byte that the pointer `buf.constData() + i` reads: `buf[i]` inside the
buffer, and what the surrounding memory `outside` holds at that offset
otherwise. -/
def peek (outside : Int → Byte) (buf : List Byte) (i : Int) : Byte :=
  if 0 ≤ i ∧ i < buf.length then buf.getD i.toNat 0 else outside i

/-- The `n` bytes that a `memcpy` from `buf.constData() + off` reads. -/
def peekBytes (outside : Int → Byte) (buf : List Byte) (off : Int) (n : Nat) : List Byte :=
  (List.range n).map (fun (k : Nat) => peek outside buf (off + (k : Int)))

/-- The local struct `Candidate` of `findBlocks`. -/
structure Candidate where
  fvStart : Int
  sizeOff : Int
deriving DecidableEq, Repr

/-- The vector `cands` that `findBlocks` builds for a marker at `pos`. -/
def cands (pos : Int) : List Candidate :=
  [ { fvStart := pos - 0x28, sizeOff := (pos - 0x28) + 0x20 },
    { fvStart := pos - 0x10, sizeOff := (pos - 0x10) + 0x20 },
    { fvStart := pos - 0x10, sizeOff := pos + 0x30 },
    { fvStart := pos, sizeOff := pos + 0x10 } ]

/-- The block that both accepting branches of `findBlocks` build and append:
the fields are set, then `findLzmaStream` runs on `blk.raw` and overwrites
`lzmaOffset`, `lzmaSize` and `hasLzma` when it finds a header. -/
def mkBlock (data : List Byte) (pos fvStart actualSize : Int) : FvhBlock :=
  let raw := mid data fvStart actualSize
  let blk : FvhBlock :=
    { fvhOffset := pos
      fvStart := fvStart
      fvSize := (actualSize % 2 ^ 32).toNat
      raw := raw
      lzmaOffset := -1
      lzmaSize := 0
      hasLzma := false }
  match findLzmaStream raw with
  | none => blk
  | some r => { blk with lzmaOffset := r.offsetOut, lzmaSize := r.sizeOut, hasLzma := true }

/-- The loop `for (auto &c : cands)` of `findBlocks`: `some blk` when a candidate
is accepted (`added = true; break`), `none` when every candidate was skipped. -/
def tryCands (outside : Int → Byte) (data : List Byte) (minSize : Nat) (pos : Int) :
    List Candidate → Option FvhBlock
  | [] => none
  | c :: rest =>
    let fvStart := if c.fvStart < 0 then 0 else c.fvStart
    if c.sizeOff + 4 > (data.length : Int) then tryCands outside data minSize pos rest else
    let fvSize := leValue (peekBytes outside data c.sizeOff 4)
    if fvSize = 0 ∨ fvSize > 128 * 1024 * 1024 ∨ fvSize < minSize then
      tryCands outside data minSize pos rest else
    let actualSize := min (fvSize : Int) ((data.length : Int) - fvStart)
    if actualSize < (minSize : Int) then tryCands outside data minSize pos rest else
    some (mkBlock data pos fvStart actualSize)

/-- The body of the `while` loop of `findBlocks` for a marker found at `pos`: the
block that is appended to `result`, if any. -/
def blockAt (outside : Int → Byte) (data : List Byte) (minSize : Nat) (pos : Nat) :
    Option FvhBlock :=
  match tryCands outside data minSize pos (cands pos) with
  | some blk => some blk
  | none =>
    let fvStart : Int := max 0 ((pos : Int) - 0x28)
    let actualSize : Int := (data.length : Int) - fvStart
    if actualSize ≥ (minSize : Int) then some (mkBlock data pos fvStart actualSize) else none

/-- The `while (true)` loop of `findBlocks`: `pos` is the scan cursor, `result`
the vector built so far, and the first argument bounds the number of iterations
(`findBlocks_eq_hits` shows that the bound is never what ends the loop). -/
def findBlocksLoop (outside : Int → Byte) (data : List Byte) (minSize : Nat) :
    Nat → Nat → List FvhBlock → List FvhBlock
  | 0, _, result => result
  | n + 1, pos, result =>
    match indexOf data sig pos with
    | none => result
    | some p =>
      findBlocksLoop outside data minSize n (p + 1)
        (result ++ (blockAt outside data minSize p).toList)

/-- `FvhParser::findBlocks(minSize)` on the image `data`. -/
def findBlocks (outside : Int → Byte) (data : List Byte) (minSize : Nat) : List FvhBlock :=
  findBlocksLoop outside data minSize (data.length + 1) 0 []

/-- The marker occurs in `data` at position `p`. -/
def markerAt (data : List Byte) (p : Nat) : Prop := slice data p 4 = sig

instance (data : List Byte) (p : Nat) : Decidable (markerAt data p) := by
  unfold markerAt; infer_instance

/-- All marker positions of `data`, ascending. -/
def hits (data : List Byte) : List Nat :=
  (List.range data.length).filter (fun p => decide (markerAt data p))

/-! ## `tryDecode` and `FvhParser::decompress` -/

/-- The liblzma status `LZMA_OK`. -/
def LZMA_OK : Int := 0

/-- The liblzma status `LZMA_STREAM_END`. -/
def LZMA_STREAM_END : Int := 1

/-- What one run of a liblzma coder hands back: the status of the initialiser, the
status of `lzma_code(&strm, LZMA_FINISH)`, and the bytes written to `next_out`. -/
structure CoderRun where
  initRet : Int
  codeRet : Int
  produced : List Byte

/-- A liblzma decoder: input bytes and `avail_out` to a run. -/
abbrev Decoder := List Byte → Nat → CoderRun

/-- The table `errNames` of `tryDecode`. -/
def errNames : List String :=
  ["OK", "STREAM_END", "MEM_ERROR", "FORMAT_ERROR",
   "OPTIONS_ERROR", "PROG_ERROR", "DATA_ERROR", "BUF_ERROR"]

/-- The guard `(ret >= 1 && ret <= 8)` of `tryDecode`. -/
def errNameFromTable (ret : Int) : Bool := decide (ret ≥ 1 ∧ ret ≤ 8)

/-- The expression `errName` of `tryDecode`; an index outside the table yields the
empty text. -/
def errNameOf (ret : Int) : String :=
  if errNameFromTable ret then errNames.getD ret.toNat "" else "UNKNOWN"

/-- The static function `tryDecode`: the returned buffer and the value of `errOut`
afterwards. At most `outBufSize` bytes can be written, so `outPos` is the length
of what the decoder produced, capped at `outBufSize`. -/
def tryDecode (dec : Decoder) (input : List Byte) (outBufSize : Nat) (errOut : String) :
    List Byte × String :=
  let run := dec input outBufSize
  if run.initRet ≠ LZMA_OK then
    ([], "decoder init failed: " ++ toString run.initRet)
  else
    let outPos := min run.produced.length outBufSize
    if run.codeRet ≠ LZMA_STREAM_END ∧ run.codeRet ≠ LZMA_OK then
      ([], "decode error: " ++ toString run.codeRet ++ " (" ++ errNameOf run.codeRet ++ ")")
    else
      (run.produced.take outPos, errOut)

/-- One call of `tryDecode` made by `decompress`: which decoder (`sniff` is the
auto decoder), at which shift from `lzmaOffset`, and what the call gave back. -/
structure Attempt where
  sniff : Bool
  skip : Nat
  output : List Byte
  err : String
deriving DecidableEq, Repr

/-- What `decompress` hands back: the returned buffer, the value of `errorOut`
afterwards, and the calls of `tryDecode` it made, in order. -/
structure DecompressResult where
  payload : List Byte
  errorOut : String
  attempts : List Attempt
deriving DecidableEq, Repr

/-- The header checks of the rescan loop of `decompress` at the pointer
`raw.constData() + p`: `false` when a `continue` is taken. -/
def rescanAccepted (outside : Int → Byte) (raw : List Byte) (p : Int) : Bool :=
  let props := (peek outside raw p).val
  if props > 224 then false else
  let lc := props % 9
  let rest := props / 9
  let lp := rest % 5
  let pb := rest / 5
  if pb > 4 ∨ lp > 4 ∨ lc > 8 then false else
  let dict := leValue (peekBytes outside raw (p + 1) 4)
  if dict < 4096 ∨ dict > 256 * 1024 * 1024 then false else
  true

/-- The loop `for (int skip = 1; skip <= 64; ++skip)` of `decompress`: `n`
iterations remain, `err` is the local `err`, `log` the calls made so far. The
result is the buffer returned from inside the loop, if any, with `err` and the
calls. `inSize - 13` and `inSize - skip` are `size_t` subtractions. -/
def rescanLoop (outside : Int → Byte) (alone : Decoder) (raw : List Byte) (lzmaOffset : Int)
    (inSize outBufSize : Nat) :
    Nat → Nat → String → List Attempt → Option (List Byte) × String × List Attempt
  | 0, _, err, log => (none, err, log)
  | n + 1, skip, err, log =>
    if skip ≥ (inSize + sizeRange - 13) % sizeRange then (none, err, log) else
    if rescanAccepted outside raw (lzmaOffset + (skip : Int)) then
      let r := tryDecode alone
        (peekBytes outside raw (lzmaOffset + (skip : Int)) ((inSize + sizeRange - skip) % sizeRange))
        outBufSize ""
      let log2 := log ++ [{ sniff := false, skip := skip, output := r.1, err := r.2 }]
      if r.1 ≠ [] then (some r.1, r.2, log2)
      else rescanLoop outside alone raw lzmaOffset inSize outBufSize n (skip + 1) r.2 log2
    else rescanLoop outside alone raw lzmaOffset inSize outBufSize n (skip + 1) err log

/-- The fixed part of the warning that `decompress` sets when nothing decoded. -/
def failText : String :=
  "LZMA decompression failed with all methods. " ++
  "Showing raw FV block bytes for manual inspection. " ++
  "Last error: "

/-- The local `uncompSize` of `decompress`: the 8 bytes at `inData + 5` when
`inSize >= 13`, and 0 otherwise. -/
def declaredSize (outside : Int → Byte) (block : FvhBlock) : Nat :=
  let inSize := (block.lzmaSize % sizeRange).toNat
  if inSize ≥ 13 then leValue (peekBytes outside block.raw (block.lzmaOffset + 5) 8) else 0

/-- The local `outBufSize` of `decompress`: the capacity of the output buffer that
every call of `tryDecode` gets. -/
def outBufSizeOf (outside : Int → Byte) (block : FvhBlock) : Nat :=
  let uncompSize := declaredSize outside block
  let knownSize := uncompSize ≠ UNKNOWN ∧ uncompSize > 0 ∧ uncompSize < MAX_DECOMP_SIZE
  if knownSize then (uncompSize + 4096) % sizeRange else 16 * 1024 * 1024

/-- `FvhParser::decompress(block, errorOut)`; `alone` is `lzma_alone_decoder`,
`sniff` is `lzma_auto_decoder`, `errorOut` the value of the out-parameter on
entry. -/
def decompress (outside : Int → Byte) (alone sniff : Decoder) (block : FvhBlock)
    (errorOut : String) : DecompressResult :=
  if block.hasLzma = false ∨ block.lzmaOffset < 0 then
    { payload := block.raw, errorOut := "", attempts := [] }
  else
    let inSize := (block.lzmaSize % sizeRange).toNat
    let outBufSize := outBufSizeOf outside block
    let input := peekBytes outside block.raw block.lzmaOffset inSize
    let r1 := tryDecode alone input outBufSize ""
    let a1 : Attempt := { sniff := false, skip := 0, output := r1.1, err := r1.2 }
    if r1.1 ≠ [] then { payload := r1.1, errorOut := errorOut, attempts := [a1] } else
    let r2 := tryDecode sniff input outBufSize ""
    let a2 : Attempt := { sniff := true, skip := 0, output := r2.1, err := r2.2 }
    if r2.1 ≠ [] then { payload := r2.1, errorOut := errorOut, attempts := [a1, a2] } else
    match rescanLoop outside alone block.raw block.lzmaOffset inSize outBufSize 64 1 r2.2
        [a1, a2] with
    | (some out, _, log) => { payload := out, errorOut := errorOut, attempts := log }
    | (none, err, log) => { payload := block.raw, errorOut := failText ++ err, attempts := log }

/-! ## `FvhParser::repack` -/

/-- The fields of `lzma_options_lzma` that `repack` sets from the original header. -/
structure LzmaOptions where
  lc : Nat
  lp : Nat
  pb : Nat
  dictSize : Nat
deriving DecidableEq, Repr

/-- The liblzma encoder `lzma_alone_encoder`: options, input bytes and `avail_out`
to a run. -/
abbrev Encoder := LzmaOptions → List Byte → Nat → CoderRun

/-- The `k` low bytes of `v`, least significant first: the object representation
that `memcpy(…, &uncompSz, 8)` copies. -/
def toLE : Nat → Nat → List Byte
  | 0, _ => []
  | k + 1, v => Fin.ofNat (v % 256) :: toLE k (v / 256)

/-- A `memcpy`/`memset` of `bytes` to `buf.data() + off`: the new buffer when the
target range lies inside `buf`, no defined result otherwise. -/
def writeAt (buf : List Byte) (off : Int) (bytes : List Byte) : Option (List Byte) :=
  if 0 ≤ off ∧ off + (bytes.length : Int) ≤ (buf.length : Int) then
    some (buf.take off.toNat ++ bytes ++ buf.drop (off.toNat + bytes.length))
  else none

/-- The options that `repack` derives from the header bytes at
`block.raw.constData() + block.lzmaOffset`. -/
def repackOptions (outside : Int → Byte) (block : FvhBlock) : LzmaOptions :=
  let props := (peek outside block.raw block.lzmaOffset).val
  let rest := props / 9
  { lc := props % 9
    lp := rest % 5
    pb := rest / 5
    dictSize := leValue (peekBytes outside block.raw (block.lzmaOffset + 1) 4) }

/-- Steps 3 and 4 of `repack`: the copy `result` of `originalData` after the
`memcpy` of the compressed bytes to `patchStart`, the `memset` of the rest of the
slot, and the `memcpy` of the 8-byte size to `patchStart + 5`; `compressed` has
been resized to `compSize` bytes. The result is `none` when a write leaves
`result`. -/
def patchImage (originalData : List Byte) (block : FvhBlock) (compressed : List Byte)
    (inSize : Nat) : Option (List Byte) :=
  let compSize := compressed.length
  let origLzmaSize := block.lzmaSize
  let patchStart := block.fvStart + block.lzmaOffset
  (writeAt originalData patchStart compressed).bind fun r1 =>
  (if (compSize : Int) < origLzmaSize then
      writeAt r1 (patchStart + (compSize : Int))
        (List.replicate (origLzmaSize - (compSize : Int)).toNat 0)
    else some r1).bind fun r2 =>
  writeAt r2 (patchStart + 5) (toLE 8 (inSize % sizeRange))

/-- The run of the encoder that `repack` starts: options from the original header,
input `patchedBinary`, output capacity `inSize + inSize / 2 + 65536`. -/
def encoderRun (outside : Int → Byte) (enc : Encoder) (block : FvhBlock)
    (patchedBinary : List Byte) : CoderRun :=
  enc (repackOptions outside block) patchedBinary
    (patchedBinary.length + patchedBinary.length / 2 + 65536)

/-- The local `compSize` of `repack`: `outBufSize - strm.avail_out`, the number of
bytes the encoder wrote. -/
def compSizeOf (outside : Int → Byte) (enc : Encoder) (block : FvhBlock)
    (patchedBinary : List Byte) : Nat :=
  min (encoderRun outside enc block patchedBinary).produced.length
    (patchedBinary.length + patchedBinary.length / 2 + 65536)

/-- `FvhParser::repack(originalData, block, patchedBinary, errorOut)`. The result
`some (buffer, errorOut)` is the returned buffer (empty: the `return {}` paths)
with the value of the out-parameter afterwards; `none` means that a write left
the image copy. -/
def repack (outside : Int → Byte) (enc : Encoder) (originalData : List Byte)
    (block : FvhBlock) (patchedBinary : List Byte) (errorOut : String) :
    Option (List Byte × String) :=
  let inSize := patchedBinary.length
  let run := encoderRun outside enc block patchedBinary
  if run.initRet ≠ LZMA_OK then
    some ([], "lzma_alone_encoder init failed: " ++ toString run.initRet)
  else
    let compSize := compSizeOf outside enc block patchedBinary
    if run.codeRet ≠ LZMA_STREAM_END then
      some ([], "LZMA compression failed: " ++ toString run.codeRet)
    else
      let compressed := run.produced.take compSize
      let origLzmaSize := block.lzmaSize
      if (compSize : Int) > origLzmaSize then
        some ([], "Compressed size (" ++ toString compSize ++
          " bytes) exceeds original LZMA slot (" ++ toString origLzmaSize ++ " bytes). " ++
          "Patched binary is too large.")
      else
        (patchImage originalData block compressed inSize).map fun result => (result, errorOut)

/-- The patch offset `block.fvStart + block.lzmaOffset`. -/
def patchStart (block : FvhBlock) : Int := block.fvStart + block.lzmaOffset

/-- The marker positions of `data` from `pos` on, ascending. -/
def hitsFrom (data : List Byte) (pos : Nat) : List Nat :=
  (List.range' pos (data.length - pos)).filter (fun p => decide (markerAt data p))

/-- The start of a candidate after the clamp `if (c.fvStart < 0) c.fvStart = 0`. -/
def clampStart (c : Candidate) : Int := if c.fvStart < 0 then 0 else c.fvStart

/-- The value that `findBlocks` reads from the size field of a candidate. -/
def candValue (outside : Int → Byte) (data : List Byte) (c : Candidate) : Nat :=
  leValue (peekBytes outside data c.sizeOff 4)

/-- The candidate passes all three `continue` guards of the candidate loop. -/
def candOk (outside : Int → Byte) (data : List Byte) (minSize : Nat) (c : Candidate) : Bool :=
  decide (¬ (c.sizeOff + 4 > (data.length : Int)) ∧
    ¬ (candValue outside data c = 0 ∨ candValue outside data c > 128 * 1024 * 1024 ∨
        candValue outside data c < minSize) ∧
    ¬ (min (candValue outside data c : Int) ((data.length : Int) - clampStart c) < (minSize : Int)))

/-- The block that the candidate loop appends for an accepted candidate. -/
def candBlock (outside : Int → Byte) (data : List Byte) (pos : Int) (c : Candidate) : FvhBlock :=
  mkBlock data pos (clampStart c)
    (min (candValue outside data c : Int) ((data.length : Int) - clampStart c))

/-- The candidate pairs `(blockStart, sizeFieldOffset)` in the order in which the
specification lists them for a marker at `p`. -/
def specCands (p : Int) : List Candidate :=
  [ { fvStart := p - 0x28, sizeOff := p - 0x08 },
    { fvStart := p - 0x10, sizeOff := p + 0x10 },
    { fvStart := p - 0x10, sizeOff := p + 0x20 },
    { fvStart := p, sizeOff := p + 0x10 } ]

/-- The acceptance condition of the specification for a candidate: its 4-byte size
field lies inside the buffer and its little-endian value `v` satisfies
`0 < v ≤ 128 MiB`, `v ≥ minSize` and `min(v, len - blockStart) ≥ minSize`. -/
def specCandOk (data : List Byte) (minSize : Nat) (c : Candidate) : Prop :=
  0 ≤ c.sizeOff ∧ c.sizeOff + 4 ≤ (data.length : Int) ∧
  0 < leValue (slice data c.sizeOff.toNat 4) ∧
  leValue (slice data c.sizeOff.toNat 4) ≤ 128 * 1024 * 1024 ∧
  minSize ≤ leValue (slice data c.sizeOff.toNat 4) ∧
  (minSize : Int) ≤ min (leValue (slice data c.sizeOff.toNat 4) : Int)
    ((data.length : Int) - c.fvStart)

instance (data : List Byte) (minSize : Nat) (c : Candidate) :
    Decidable (specCandOk data minSize c) := by
  unfold specCandOk; infer_instance

/-- Surrounding memory that holds zero bytes. -/
def zeroOutside : Int → Byte := fun _ => 0

/-- An image of 76 bytes: the marker at position `0x28`, the value 8 in the four
bytes at `0x28 + 0x20`, zero bytes elsewhere. -/
def img10 : List Byte :=
  List.replicate 40 0 ++ sig ++ List.replicate 28 0 ++ [8, 0, 0, 0]

/-- An image of 44 bytes: the value 8 in the four bytes at `0x20`, the marker at
position `0x28`, zero bytes elsewhere. -/
def img10b : List Byte :=
  List.replicate 32 0 ++ [8, 0, 0, 0] ++ List.replicate 4 0 ++ sig

/-- A decoder whose run ends in `LZMA_DATA_ERROR` (9) without output. -/
def failingDecoder : Decoder := fun _ _ => { initRet := 0, codeRet := 9, produced := [] }

/-- A block without a stream, as `findBlocks` leaves it when no header is found. -/
def plainBlock : FvhBlock :=
  { fvhOffset := 0, fvStart := 0, fvSize := 2, lzmaOffset := -1, lzmaSize := 0,
    hasLzma := false, raw := [1, 2] }

/-- A block whose 14 raw bytes are a lone header and one more byte, with the stream
that `findLzmaStream` reports for them. -/
def streamBlock : FvhBlock :=
  { fvhOffset := 0, fvStart := 0, fvSize := 14, lzmaOffset := 0, lzmaSize := 14,
    hasLzma := true, raw := loneHeader ++ [0] }

/-- An encoder that stores: the 13 bytes of `loneHeader`, then the input. -/
def storeEncoder : Encoder :=
  fun _ input _ => { initRet := 0, codeRet := 1, produced := loneHeader ++ input }

/-- An image of 16 bytes: a lone header and three zero bytes. -/
def img16 : List Byte := loneHeader ++ [0, 0, 0]

/-- The block of `img16` that starts at 0 and whose stream is all of it. -/
def block16 : FvhBlock :=
  { fvhOffset := 0, fvStart := 0, fvSize := 16, lzmaOffset := 0, lzmaSize := 16,
    hasLzma := true, raw := img16 }

/-- The slot `[ps, ps + lzmaSize)` and the size field `[ps + 5, ps + 13)` of a block,
`ps = fvStart + lzmaOffset`, lie inside the image. -/
def slotInside (originalData : List Byte) (block : FvhBlock) : Prop :=
  0 ≤ patchStart block ∧ patchStart block + block.lzmaSize ≤ (originalData.length : Int) ∧
  patchStart block + 13 ≤ (originalData.length : Int)

instance (originalData : List Byte) (block : FvhBlock) :
    Decidable (slotInside originalData block) := by
  unfold slotInside; infer_instance

/-- The compressor did its work and the output fits the slot: the initialiser
returned `LZMA_OK`, the run ended with `LZMA_STREAM_END`, and
`compSize ≤ block.lzmaSize`. -/
def encodeFits (outside : Int → Byte) (enc : Encoder) (block : FvhBlock)
    (patchedBinary : List Byte) : Prop :=
  (encoderRun outside enc block patchedBinary).initRet = LZMA_OK ∧
  (encoderRun outside enc block patchedBinary).codeRet = LZMA_STREAM_END ∧
  (compSizeOf outside enc block patchedBinary : Int) ≤ block.lzmaSize

instance (outside : Int → Byte) (enc : Encoder) (block : FvhBlock) (patchedBinary : List Byte) :
    Decidable (encodeFits outside enc block patchedBinary) := by
  unfold encodeFits; infer_instance

/-- The image that `repack` returns for `img16`, `block16`, the payload `[7]` and
`storeEncoder`: header bytes, the size field reading 1, the payload byte, and the
zero-filled rest of the slot. -/
def patched16 : List Byte :=
  [0x5D, 0x00, 0x00, 0x10, 0x00, 1, 0, 0, 0, 0, 0, 0, 0, 7, 0, 0]

/-- The offsets at which the candidate loop of `findBlocks` performs its 4-byte
`memcpy` from `m_data.constData() + c.sizeOff`, in order: the loop of `tryCands`
with the reads recorded. A candidate that is skipped by the guard
`c.sizeOff + 4 > m_data.size()` is not read; the loop ends after the read of the
candidate that is accepted. -/
def candReads (outside : Int → Byte) (data : List Byte) (minSize : Nat) :
    List Candidate → List Int
  | [] => []
  | c :: rest =>
    let fvStart := if c.fvStart < 0 then 0 else c.fvStart
    if c.sizeOff + 4 > (data.length : Int) then candReads outside data minSize rest else
    let fvSize := leValue (peekBytes outside data c.sizeOff 4)
    if fvSize = 0 ∨ fvSize > 128 * 1024 * 1024 ∨ fvSize < minSize then
      c.sizeOff :: candReads outside data minSize rest else
    let actualSize := min (fvSize : Int) ((data.length : Int) - fvStart)
    if actualSize < (minSize : Int) then c.sizeOff :: candReads outside data minSize rest else
    [c.sizeOff]

/-- An image of 24 bytes that starts with the marker; zero bytes follow. -/
def imgEarly : List Byte := sig ++ List.replicate 20 0

/-- The local `inSize` of `decompress`: `static_cast<size_t>(block.lzmaSize)`. -/
def inSizeOf (block : FvhBlock) : Nat := (block.lzmaSize % sizeRange).toNat

/-- The run of the decoder in the call of `tryDecode` that `decompress` makes with
the auto decoder (`isSniff`) or the single-stream decoder at the pointer
`inData + skip`, with `inSize - skip` input bytes and the capacity `outBufSize`. -/
def attemptRun (outside : Int → Byte) (alone sniff : Decoder) (block : FvhBlock)
    (isSniff : Bool) (skip : Nat) : CoderRun :=
  (if isSniff then sniff else alone)
    (peekBytes outside block.raw (block.lzmaOffset + (skip : Int))
      ((inSizeOf block + sizeRange - skip) % sizeRange))
    (outBufSizeOf outside block)

/-- The record of that call: what `tryDecode` gives back for it when `err` has been
cleared. -/
def attemptOf (outside : Int → Byte) (alone sniff : Decoder) (block : FvhBlock)
    (isSniff : Bool) (skip : Nat) : Attempt :=
  { sniff := isSniff
    skip := skip
    output := (tryDecode (if isSniff then sniff else alone)
      (peekBytes outside block.raw (block.lzmaOffset + (skip : Int))
        ((inSizeOf block + sizeRange - skip) % sizeRange))
      (outBufSizeOf outside block) "").1
    err := (tryDecode (if isSniff then sniff else alone)
      (peekBytes outside block.raw (block.lzmaOffset + (skip : Int))
        ((inSizeOf block + sizeRange - skip) % sizeRange))
      (outBufSizeOf outside block) "").2 }

/-- Place of a call in the cascade of `decompress`: 0 for the single-stream decode
at `lzmaOffset`, 1 for the format-sniffing decode at `lzmaOffset`, `skip + 1` for
the retry at `lzmaOffset + skip`. -/
def attemptRank (a : Attempt) : Nat :=
  if a.skip = 0 then (if a.sniff then 1 else 0) else a.skip + 1

/-- A decoder that stores: it ends with `LZMA_STREAM_END` and produces the input
bytes that follow the 13 header bytes. -/
def storeDecoder : Decoder :=
  fun input _ => { initRet := 0, codeRet := 1, produced := input.drop 13 }

/-- A block with a stream whose header declares the uncompressed size 0. -/
def zeroSizeBlock : FvhBlock :=
  { fvhOffset := 0, fvStart := 0, fvSize := 14, lzmaOffset := 0, lzmaSize := 14,
    hasLzma := true,
    raw := [0x5D, 0x00, 0x00, 0x10, 0x00, 0, 0, 0, 0, 0, 0, 0, 0, 0] }

/-- A block with a stream whose header declares the uncompressed size 256 MiB. -/
def capSizeBlock : FvhBlock :=
  { fvhOffset := 0, fvStart := 0, fvSize := 14, lzmaOffset := 0, lzmaSize := 14,
    hasLzma := true,
    raw := [0x5D, 0x00, 0x00, 0x10, 0x00, 0, 0, 0, 0x10, 0, 0, 0, 0, 0] }

/-- The header checks that the rescan of `decompress` applies at offset `i` of the
raw bytes: props at most 224 and dictionary size in `[4096, 256 MiB]`. -/
def rescanHeaderPos (d : List Byte) (i : Nat) : Prop :=
  byteAt d i ≤ 224 ∧
  4096 ≤ leValue (slice d (i + 1) 4) ∧ leValue (slice d (i + 1) 4) ≤ 256 * 1024 * 1024

instance (d : List Byte) (i : Nat) : Decidable (rescanHeaderPos d i) := by
  unfold rescanHeaderPos; infer_instance

/-- A block of 15 raw bytes with the stream that `findLzmaStream` reports for them
(offset 0). At offset 1 the props byte and the dictionary size (4096) pass the
checks, and the declared uncompressed size is `2 ^ 56`. -/
def rescanBlock : FvhBlock :=
  { fvhOffset := 0, fvStart := 0, fvSize := 15, lzmaOffset := 0, lzmaSize := 15,
    hasLzma := true,
    raw := [0x5D, 0x00, 0x00, 0x10, 0x00, 0, 0, 0, 0, 0, 0, 0, 0, 1, 0] }

/-- Surrounding memory that holds the byte 8 at offset `-8` and zero bytes
elsewhere. -/
def strayOutside : Int → Byte := fun i => if i = -8 then 8 else 0

/-- A block with a stream whose header declares the uncompressed size 1. -/
def oneSizeBlock : FvhBlock :=
  { fvhOffset := 0, fvStart := 0, fvSize := 14, lzmaOffset := 0, lzmaSize := 14,
    hasLzma := true,
    raw := [0x5D, 0x00, 0x00, 0x10, 0x00, 1, 0, 0, 0, 0, 0, 0, 0, 0] }

/-- The field `lc` of the decomposition of the props byte that `findLzmaStream`,
the rescan of `decompress` and `repack` perform: `lc = props % 9`. -/
def propsLc (props : Nat) : Nat := props % 9

/-- The field `lp` of that decomposition: `rest = props / 9`, `lp = rest % 5`. -/
def propsLp (props : Nat) : Nat := props / 9 % 5

/-- The field `pb` of that decomposition: `rest = props / 9`, `pb = rest / 5`. -/
def propsPb (props : Nat) : Nat := props / 9 / 5

/-- The indices of `block.raw` that `repack` reads through the pointer
`origProps = block.raw.constData() + block.lzmaOffset`: `origProps[0]` and the 4
bytes of `memcpy(&opt.dict_size, origProps + 1, 4)`. -/
def repackReads (block : FvhBlock) : List Int :=
  (List.range 5).map (fun (k : Nat) => block.lzmaOffset + (k : Int))

/-- An image of 32 bytes: the marker at position 8, the byte `0xFF` elsewhere. No
offset of it passes the header checks of `findLzmaStream`. -/
def imgNoStream : List Byte := List.replicate 8 0xFF ++ sig ++ List.replicate 20 0xFF

/-- Surrounding memory that holds the byte `0x5D` everywhere. -/
def propsOutside : Int → Byte := fun _ => 0x5D

/-- A decoder whose run ends with the status 8 (`LZMA_OPTIONS_ERROR`) without
output. -/
def optionsErrorDecoder : Decoder := fun _ _ => { initRet := 0, codeRet := 8, produced := [] }

/-- The shifts at which the rescan of `decompress` makes a retry when no call gives
output, ascending: the `skip` in `1..64` below the bound `inSize - 13` (a `size_t`
subtraction) of the `break`, whose bytes pass the header checks of the rescan. -/
def retrySkips (outside : Int → Byte) (block : FvhBlock) : List Nat :=
  (List.range' 1 64).filter (fun s =>
    decide (s < (inSizeOf block + sizeRange - 13) % sizeRange) &&
      rescanAccepted outside block.raw (block.lzmaOffset + (s : Int)))

/-- The cascade of `decompress` in full, as the calls of `tryDecode` that it makes
when none of them gives output: (1) the single-stream decode at `lzmaOffset`,
(2) the format-sniffing decode at `lzmaOffset`, (3) the single-stream decode at
`lzmaOffset + skip` for the shifts of `retrySkips`, ascending. -/
def cascade (outside : Int → Byte) (alone sniff : Decoder) (block : FvhBlock) : List Attempt :=
  attemptOf outside alone sniff block false 0 ::
  attemptOf outside alone sniff block true 0 ::
  (retrySkips outside block).map (fun s => attemptOf outside alone sniff block false s)

/-- The calls of a list up to and including the first one that gave output. -/
def untilOutput : List Attempt → List Attempt
  | [] => []
  | a :: rest => if a.output ≠ [] then [a] else a :: untilOutput rest

/-- The output of the first call of a list that gave output, if any. -/
def firstOutput (l : List Attempt) : Option (List Byte) :=
  (l.find? (fun a => decide (a.output ≠ []))).map (fun a => a.output)

/-! ### Lemmas on the scan loop -/

theorem headerAccepted_iff (d : List Byte) (i : Nat) :
    headerAccepted d i = true ↔
      byteAt d i ≤ 224 ∧
      4096 ≤ leValue (slice d (i + 1) 4) ∧ leValue (slice d (i + 1) 4) ≤ 256 * 1024 * 1024 ∧
      (leValue (slice d (i + 5) 8) = UNKNOWN ∨ leValue (slice d (i + 5) 8) ≤ 512 * 1024 * 1024) := by
  unfold headerAccepted
  simp only []
  constructor
  · intro h
    split_ifs at h with h1 h2 h3 h4
    refine ⟨by omega, by omega, by omega, ?_⟩
    by_cases hu : leValue (slice d (i + 5) 8) = UNKNOWN
    · exact Or.inl hu
    · right
      by_contra hgt
      exact h4 ⟨hu, by omega⟩
  · rintro ⟨h1, h2, h3, h4⟩
    have hp : ¬ (byteAt d i > 224) := by omega
    have hq : ¬ (byteAt d i / 9 / 5 > 4 ∨ byteAt d i / 9 % 5 > 4 ∨ byteAt d i % 9 > 8) := by omega
    have hr : ¬ (leValue (slice d (i + 1) 4) < 4096 ∨
        leValue (slice d (i + 1) 4) > 256 * 1024 * 1024) := by omega
    have hs : ¬ (leValue (slice d (i + 5) 8) ≠ UNKNOWN ∧
        leValue (slice d (i + 5) 8) > 512 * 1024 * 1024) := by
      rintro ⟨ha, hb⟩
      rcases h4 with h4 | h4
      · exact ha h4
      · omega
    rw [if_neg hp, if_neg hq, if_neg hr, if_neg hs]

theorem findLzmaLoop_some (d : List Byte) :
    ∀ (n i r : Nat), findLzmaLoop d n i = some r →
      i ≤ r ∧ r < i + n ∧ headerAccepted d r = true ∧
        ∀ j, i ≤ j → j < r → headerAccepted d j = false := by
  intro n
  induction n with
  | zero => intro i r h; simp [findLzmaLoop] at h
  | succ n ih =>
    intro i r h
    unfold findLzmaLoop at h
    by_cases hc : headerAccepted d i = true
    · rw [if_pos hc] at h
      cases h
      exact ⟨le_refl _, by omega, hc, fun j h1 h2 => by omega⟩
    · rw [if_neg hc] at h
      obtain ⟨h1, h2, h3, h4⟩ := ih (i + 1) r h
      refine ⟨by omega, by omega, h3, ?_⟩
      intro j hj1 hj2
      by_cases hji : j = i
      · subst hji; simpa using hc
      · exact h4 j (by omega) hj2

theorem findLzmaLoop_none (d : List Byte) :
    ∀ (n i : Nat), findLzmaLoop d n i = none →
      ∀ j, i ≤ j → j < i + n → headerAccepted d j = false := by
  intro n
  induction n with
  | zero => intro i _ j h1 h2; omega
  | succ n ih =>
    intro i h j h1 h2
    unfold findLzmaLoop at h
    by_cases hc : headerAccepted d i = true
    · rw [if_pos hc] at h; cases h
    · rw [if_neg hc] at h
      by_cases hji : j = i
      · subst hji; simpa using hc
      · exact ih (i + 1) h j (by omega) (by omega)

theorem scannedHeaderPos_iff (d : List Byte) (i : Nat) :
    scannedHeaderPos d i ↔ i + 13 < d.length ∧ headerAccepted d i = true := by
  rw [headerAccepted_iff]; rfl

theorem findLzmaStream_none_iff (d : List Byte) :
    findLzmaStream d = none ↔ ∀ i, ¬ scannedHeaderPos d i := by
  unfold findLzmaStream
  simp only []
  constructor
  · intro h i hi
    rw [scannedHeaderPos_iff] at hi
    cases hl : findLzmaLoop d (d.length - 13) 0 with
    | none =>
      have := findLzmaLoop_none d _ _ hl i (Nat.zero_le _) (by omega)
      rw [hi.2] at this; cases this
    | some r => rw [hl] at h; cases h
  · intro h
    cases hl : findLzmaLoop d (d.length - 13) 0 with
    | none => rfl
    | some r =>
      obtain ⟨_, h2, h3, _⟩ := findLzmaLoop_some d _ _ _ hl
      exact absurd ((scannedHeaderPos_iff d r).2 ⟨by omega, h3⟩) (h r)

theorem findLzmaStream_some (d : List Byte) (r : LzmaFound) (h : findLzmaStream d = some r) :
    ∃ i : Nat, r.offsetOut = (i : Int) ∧ r.sizeOut = (d.length : Int) - (i : Int) ∧
      r.paramsOut.props = slice d i 5 ∧ r.paramsOut.uncompSize = leValue (slice d (i + 5) 8) ∧
      scannedHeaderPos d i ∧ ∀ j, j < i → ¬ scannedHeaderPos d j := by
  unfold findLzmaStream at h
  simp only [] at h
  cases hl : findLzmaLoop d (d.length - 13) 0 with
  | none => rw [hl] at h; cases h
  | some i =>
    rw [hl] at h
    simp only [Option.some.injEq] at h
    subst h
    obtain ⟨_, h2, h3, h4⟩ := findLzmaLoop_some d _ _ _ hl
    refine ⟨i, rfl, rfl, rfl, rfl, (scannedHeaderPos_iff d i).2 ⟨by omega, h3⟩, ?_⟩
    intro j hj hs
    rw [scannedHeaderPos_iff] at hs
    have := h4 j (Nat.zero_le _) hj
    rw [hs.2] at this; cases this

/-- C8, as stated, fails: the 13 bytes of `loneHeader` form a valid header position
at offset 0 in the wording of the specification (`0 + 13 ≤ 13`), yet
`findLzmaStream` reports nothing, because its loop condition is `i < sz - 13`. -/
theorem findLzmaStream_misses_lone_header :
    validHeaderPos loneHeader 0 ∧ (findLzmaStream loneHeader).isSome = false := by
  decide

/-- C8, amended: `findLzmaStream` reports found if and only if some offset `i` with
`i + 13 < len` (at least one byte follows the 13 header bytes) passes the three
range checks, and the offset it reports is the least such offset. -/
theorem findLzmaStream_least_scanned (d : List Byte) :
    ((findLzmaStream d).isSome = true ↔ ∃ i, scannedHeaderPos d i) ∧
    (match findLzmaStream d with
      | none => True
      | some r => ∃ i : Nat, r.offsetOut = (i : Int) ∧ scannedHeaderPos d i ∧
          ∀ j, j < i → ¬ scannedHeaderPos d j) := by
  cases h : findLzmaStream d with
  | none =>
    refine ⟨?_, trivial⟩
    simp only [Option.isSome_none, Bool.false_eq_true, false_iff, not_exists]
    exact (findLzmaStream_none_iff d).1 h
  | some r =>
    obtain ⟨i, h1, _, _, _, h5, h6⟩ := findLzmaStream_some d r h
    exact ⟨⟨fun _ => ⟨i, h5⟩, fun _ => rfl⟩, i, h1, h5, h6⟩

/-- C9: when `findLzmaStream` reports found with offset `i` and size `s`, then
`0 ≤ i`, `i + 13 ≤ len`, byte `i` is at most 224, the dictionary size at `i + 1`
lies in `[4096, 256 MiB]`, the declared size at `i + 5` is the sentinel or at most
512 MiB, the params hold bytes `[i, i + 5)` and that declared size, and
`s = len - i`. -/
theorem findLzmaStream_found_header (d : List Byte) (r : LzmaFound)
    (h : findLzmaStream d = some r) :
    0 ≤ r.offsetOut ∧ r.offsetOut + 13 ≤ (d.length : Int) ∧
    byteAt d r.offsetOut.toNat ≤ 224 ∧
    4096 ≤ leValue (slice d (r.offsetOut.toNat + 1) 4) ∧
    leValue (slice d (r.offsetOut.toNat + 1) 4) ≤ 256 * 1024 * 1024 ∧
    (leValue (slice d (r.offsetOut.toNat + 5) 8) = UNKNOWN ∨
      leValue (slice d (r.offsetOut.toNat + 5) 8) ≤ 512 * 1024 * 1024) ∧
    r.paramsOut.props = slice d r.offsetOut.toNat 5 ∧
    r.paramsOut.uncompSize = leValue (slice d (r.offsetOut.toNat + 5) 8) ∧
    r.sizeOut = (d.length : Int) - r.offsetOut := by
  obtain ⟨i, h1, h2, h3, h4, h5, _⟩ := findLzmaStream_some d r h
  have hi : r.offsetOut.toNat = i := by rw [h1]; exact Int.toNat_natCast i
  rw [hi]
  obtain ⟨a, b, c, e, f⟩ := h5
  refine ⟨by omega, by omega, b, c, e, f, h3, h4, ?_⟩
  rw [h2, h1]

/-- Witness for C9: the lone header followed by one byte is found at offset 0. -/
theorem findLzmaStream_found_header_witness :
    findLzmaStream (loneHeader ++ [0]) =
        some { offsetOut := 0, sizeOut := 14,
               paramsOut := { props := [0x5D, 0x00, 0x00, 0x10, 0x00], uncompSize := UNKNOWN } } ∧
      (0 : Int) + 13 ≤ ((loneHeader ++ [0]).length : Int) := by
  have h : findLzmaStream (loneHeader ++ [0]) =
        some { offsetOut := 0, sizeOut := 14,
               paramsOut := { props := [0x5D, 0x00, 0x00, 0x10, 0x00], uncompSize := UNKNOWN } } := by
    decide
  exact ⟨h, (findLzmaStream_found_header _ _ h).2.1⟩

/-! ### Lemmas on `findBlocks` -/

theorem slice_length (d : List Byte) (off n : Nat) :
    (slice d off n).length = min n (d.length - off) := by
  simp [slice]

theorem markerAt_bound (data : List Byte) (p : Nat) (h : markerAt data p) :
    p + 4 ≤ data.length := by
  have h1 := slice_length data p 4
  rw [show slice data p 4 = sig from h] at h1
  simp only [sig, List.length_cons, List.length_nil] at h1
  omega

theorem indexOfLoop_some (data pat : List Byte) :
    ∀ (n p r : Nat), indexOfLoop data pat n p = some r →
      p ≤ r ∧ r < p + n ∧ slice data r pat.length = pat ∧
        ∀ j, p ≤ j → j < r → slice data j pat.length ≠ pat := by
  intro n
  induction n with
  | zero => intro p r h; simp [indexOfLoop] at h
  | succ n ih =>
    intro p r h
    unfold indexOfLoop at h
    by_cases hc : slice data p pat.length = pat
    · rw [if_pos hc] at h
      cases h
      exact ⟨le_refl _, by omega, hc, fun j h1 h2 => by omega⟩
    · rw [if_neg hc] at h
      obtain ⟨h1, h2, h3, h4⟩ := ih (p + 1) r h
      refine ⟨by omega, by omega, h3, ?_⟩
      intro j hj1 hj2
      by_cases hji : j = p
      · subst hji; exact hc
      · exact h4 j (by omega) hj2

theorem indexOfLoop_none (data pat : List Byte) :
    ∀ (n p : Nat), indexOfLoop data pat n p = none →
      ∀ j, p ≤ j → j < p + n → slice data j pat.length ≠ pat := by
  intro n
  induction n with
  | zero => intro p _ j h1 h2; omega
  | succ n ih =>
    intro p h j h1 h2
    unfold indexOfLoop at h
    by_cases hc : slice data p pat.length = pat
    · rw [if_pos hc] at h; cases h
    · rw [if_neg hc] at h
      by_cases hji : j = p
      · subst hji; exact hc
      · exact ih (p + 1) h j (by omega) (by omega)

theorem indexOf_sig_some (data : List Byte) (pos r : Nat) (h : indexOf data sig pos = some r) :
    pos ≤ r ∧ markerAt data r ∧ ∀ j, pos ≤ j → j < r → ¬ markerAt data j := by
  obtain ⟨h1, _, h3, h4⟩ := indexOfLoop_some data sig _ _ _ h
  exact ⟨h1, h3, h4⟩

theorem indexOf_sig_none (data : List Byte) (pos : Nat) (h : indexOf data sig pos = none) :
    ∀ j, pos ≤ j → ¬ markerAt data j := by
  intro j hj hm
  have hb := markerAt_bound data j hm
  refine indexOfLoop_none data sig _ _ h j hj ?_ hm
  simp only [sig, List.length_cons, List.length_nil]
  omega

theorem hitsFrom_step (data : List Byte) (pos : Nat) (h : pos < data.length) :
    hitsFrom data pos =
      (if markerAt data pos then [pos] else []) ++ hitsFrom data (pos + 1) := by
  unfold hitsFrom
  have : data.length - pos = (data.length - (pos + 1)) + 1 := by omega
  rw [this, List.range'_succ, List.filter_cons]
  by_cases hm : markerAt data pos
  · simp [hm]
  · simp [hm]

theorem hitsFrom_skip (data : List Byte) :
    ∀ (k pos : Nat), markerAt data (pos + k) → (∀ j, pos ≤ j → j < pos + k → ¬ markerAt data j) →
      hitsFrom data pos = (pos + k) :: hitsFrom data (pos + k + 1) := by
  intro k
  induction k with
  | zero =>
    intro pos hm _
    have hb := markerAt_bound data _ hm
    rw [hitsFrom_step data pos (by omega)]
    simp only [Nat.add_zero] at hm ⊢
    rw [if_pos hm]; rfl
  | succ k ih =>
    intro pos hm hno
    have hb := markerAt_bound data _ hm
    rw [hitsFrom_step data pos (by omega), if_neg (hno pos (le_refl _) (by omega))]
    have e : pos + (k + 1) = pos + 1 + k := by omega
    rw [e] at hm ⊢
    simpa using ih (pos + 1) hm (fun j h1 h2 => hno j (by omega) (by omega))

theorem hitsFrom_none (data : List Byte) (pos : Nat) (h : ∀ j, pos ≤ j → ¬ markerAt data j) :
    hitsFrom data pos = [] := by
  unfold hitsFrom
  rw [List.filter_eq_nil_iff]
  intro a ha
  rw [List.mem_range'_1] at ha
  simpa using h a ha.1

theorem hits_eq_hitsFrom (data : List Byte) : hits data = hitsFrom data 0 := by
  unfold hits hitsFrom
  rw [List.range_eq_range']
  simp

theorem mem_hits (data : List Byte) (p : Nat) : p ∈ hits data ↔ markerAt data p := by
  unfold hits
  rw [List.mem_filter, List.mem_range]
  constructor
  · intro h; simpa using h.2
  · intro h
    have := markerAt_bound data p h
    exact ⟨by omega, by simpa using h⟩

theorem findBlocksLoop_eq (outside : Int → Byte) (data : List Byte) (minSize : Nat) :
    ∀ (n pos : Nat) (acc : List FvhBlock), data.length + 1 ≤ n + pos →
      findBlocksLoop outside data minSize n pos acc =
        acc ++ (hitsFrom data pos).filterMap (blockAt outside data minSize) := by
  intro n
  induction n with
  | zero =>
    intro pos acc h
    rw [hitsFrom_none data pos (fun j hj hm => by
      have := markerAt_bound data j hm; omega)]
    simp [findBlocksLoop]
  | succ n ih =>
    intro pos acc h
    unfold findBlocksLoop
    cases hi : indexOf data sig pos with
    | none =>
      rw [hitsFrom_none data pos (indexOf_sig_none data pos hi)]
      simp
    | some p =>
      obtain ⟨h1, h2, h3⟩ := indexOf_sig_some data pos p hi
      simp only []
      obtain ⟨k, rfl⟩ := Nat.exists_eq_add_of_le h1
      rw [hitsFrom_skip data k pos h2 h3, ih (pos + k + 1) _ (by omega)]
      rw [List.filterMap_cons]
      cases blockAt outside data minSize (pos + k) <;> simp

/-- The loop of `findBlocks` visits every marker position, in ascending order, and
appends what the loop body yields there: the iteration bound never cuts it short. -/
theorem findBlocks_eq_hits (outside : Int → Byte) (data : List Byte) (minSize : Nat) :
    findBlocks outside data minSize = (hits data).filterMap (blockAt outside data minSize) := by
  unfold findBlocks
  rw [findBlocksLoop_eq outside data minSize _ _ _ (by omega), hits_eq_hitsFrom]
  simp

theorem mem_findBlocks (outside : Int → Byte) (data : List Byte) (minSize : Nat) (b : FvhBlock) :
    b ∈ findBlocks outside data minSize ↔
      ∃ p, markerAt data p ∧ blockAt outside data minSize p = some b := by
  rw [findBlocks_eq_hits, List.mem_filterMap]
  constructor
  · rintro ⟨p, hp, hb⟩; exact ⟨p, (mem_hits data p).1 hp, hb⟩
  · rintro ⟨p, hp, hb⟩; exact ⟨p, (mem_hits data p).2 hp, hb⟩

theorem tryCands_eq (outside : Int → Byte) (data : List Byte) (minSize : Nat) (pos : Int) :
    ∀ cs : List Candidate, tryCands outside data minSize pos cs =
      (cs.find? (candOk outside data minSize)).map (candBlock outside data pos) := by
  intro cs
  induction cs with
  | nil => rfl
  | cons c rest ih =>
    unfold tryCands
    simp only []
    rw [List.find?_cons]
    by_cases h1 : c.sizeOff + 4 > (data.length : Int)
    · rw [if_pos h1, ih]
      have : candOk outside data minSize c = false := by
        unfold candOk; simp [h1]
      rw [this]
    · rw [if_neg h1]
      by_cases h2 : candValue outside data c = 0 ∨ candValue outside data c > 128 * 1024 * 1024 ∨
          candValue outside data c < minSize
      · have h2' : leValue (peekBytes outside data c.sizeOff 4) = 0 ∨
            leValue (peekBytes outside data c.sizeOff 4) > 128 * 1024 * 1024 ∨
            leValue (peekBytes outside data c.sizeOff 4) < minSize := h2
        rw [if_pos h2', ih]
        have : candOk outside data minSize c = false := by
          unfold candOk; simp only [decide_eq_false_iff_not]; tauto
        rw [this]
      · have h2' : ¬ (leValue (peekBytes outside data c.sizeOff 4) = 0 ∨
            leValue (peekBytes outside data c.sizeOff 4) > 128 * 1024 * 1024 ∨
            leValue (peekBytes outside data c.sizeOff 4) < minSize) := h2
        rw [if_neg h2']
        by_cases h3 : min (candValue outside data c : Int) ((data.length : Int) - clampStart c)
            < (minSize : Int)
        · have h3' : min (leValue (peekBytes outside data c.sizeOff 4) : Int)
              ((data.length : Int) - (if c.fvStart < 0 then 0 else c.fvStart)) < (minSize : Int) := h3
          rw [if_pos h3', ih]
          have : candOk outside data minSize c = false := by
            unfold candOk; simp only [decide_eq_false_iff_not]; tauto
          rw [this]
        · have h3' : ¬ (min (leValue (peekBytes outside data c.sizeOff 4) : Int)
              ((data.length : Int) - (if c.fvStart < 0 then 0 else c.fvStart)) < (minSize : Int)) := h3
          rw [if_neg h3']
          have : candOk outside data minSize c = true := by
            unfold candOk; simp only [decide_eq_true_eq]; exact ⟨h1, h2, h3⟩
          rw [this]
          rfl

theorem mkBlock_fields (data : List Byte) (pos fvStart actualSize : Int) :
    (mkBlock data pos fvStart actualSize).fvhOffset = pos ∧
    (mkBlock data pos fvStart actualSize).fvStart = fvStart ∧
    (mkBlock data pos fvStart actualSize).fvSize = (actualSize % 2 ^ 32).toNat ∧
    (mkBlock data pos fvStart actualSize).raw = mid data fvStart actualSize := by
  unfold mkBlock
  simp only []
  split <;> exact ⟨rfl, rfl, rfl, rfl⟩

theorem mid_eq_slice (data : List Byte) (pos len : Int) (h : 0 ≤ len) :
    mid data pos len = slice data pos.toNat len.toNat := by
  unfold mid slice
  rw [if_neg (by omega)]

/-- The fields of a block built from a start inside the image and a size that does
not run past its end. -/
theorem mkBlock_bounds (data : List Byte) (minSize : Nat) (pos s a : Int)
    (hlen : data.length < 2 ^ 32) (hs : 0 ≤ s) (hmin : (minSize : Int) ≤ a) (ha0 : 0 ≤ a)
    (ha : a ≤ (data.length : Int) - s) :
    0 ≤ (mkBlock data pos s a).fvStart ∧
    minSize ≤ (mkBlock data pos s a).fvSize ∧
    ((mkBlock data pos s a).fvSize : Int) ≤ (data.length : Int) - (mkBlock data pos s a).fvStart ∧
    (mkBlock data pos s a).raw.length = (mkBlock data pos s a).fvSize ∧
    (mkBlock data pos s a).raw =
      slice data (mkBlock data pos s a).fvStart.toNat (mkBlock data pos s a).fvSize := by
  obtain ⟨_, h2, h3, h4⟩ := mkBlock_fields data pos s a
  rw [h2, h3, h4]
  have hmod : a % 2 ^ 32 = a := Int.emod_eq_of_lt ha0 (by omega)
  rw [hmod, mid_eq_slice data s a ha0, slice_length]
  refine ⟨hs, by omega, by omega, by omega, rfl⟩

theorem blockAt_some (outside : Int → Byte) (data : List Byte) (minSize : Nat) (p : Nat)
    (b : FvhBlock) (h : blockAt outside data minSize p = some b) :
    (∃ c ∈ cands p, candOk outside data minSize c = true ∧ b = candBlock outside data p c) ∨
    ((minSize : Int) ≤ (data.length : Int) - max 0 ((p : Int) - 0x28) ∧
      b = mkBlock data p (max 0 ((p : Int) - 0x28)) ((data.length : Int) - max 0 ((p : Int) - 0x28))) := by
  unfold blockAt at h
  rw [tryCands_eq] at h
  cases hf : (cands (p : Int)).find? (candOk outside data minSize) with
  | some c =>
    rw [hf] at h
    simp only [Option.map_some', Option.some.injEq] at h
    left
    exact ⟨c, List.mem_of_find?_eq_some hf, List.find?_some hf, h.symm⟩
  | none =>
    rw [hf] at h
    simp only [Option.map_none'] at h
    right
    by_cases hc : (data.length : Int) - max 0 ((p : Int) - 0x28) ≥ (minSize : Int)
    · rw [if_pos hc] at h
      simp only [Option.some.injEq] at h
      exact ⟨hc, h.symm⟩
    · rw [if_neg hc] at h; cases h

theorem cands_clampStart (p : Nat) (c : Candidate) (hc : c ∈ cands p) :
    0 ≤ clampStart c ∧ clampStart c ≤ (p : Int) := by
  simp only [cands, List.mem_cons, List.mem_singleton, List.not_mem_nil, or_false] at hc
  rcases hc with rfl | rfl | rfl | rfl <;>
  · unfold clampStart
    simp only []
    split_ifs <;> omega

/-- C1: every block returned by `findBlocks` has `fvStart ≥ 0`, `fvSize ≥ minSize`,
`fvSize ≤ len(data) - fvStart`, `len(raw) = fvSize`, and `raw` is exactly the bytes
`data[fvStart .. fvStart + fvSize)`; the block may come from a size-field candidate
or from the end-of-buffer fallback. The image is one that the `int` scan cursor can
address (`len(data) < 2 ^ 31`). -/
theorem findBlocks_block_bounds (outside : Int → Byte) (data : List Byte) (minSize : Nat)
    (hlen : data.length < 2 ^ 31) (b : FvhBlock) (hb : b ∈ findBlocks outside data minSize) :
    0 ≤ b.fvStart ∧ minSize ≤ b.fvSize ∧ (b.fvSize : Int) ≤ (data.length : Int) - b.fvStart ∧
    b.raw.length = b.fvSize ∧ b.raw = slice data b.fvStart.toNat b.fvSize := by
  obtain ⟨p, hp, hbp⟩ := (mem_findBlocks outside data minSize b).1 hb
  have hpb := markerAt_bound data p hp
  rcases blockAt_some outside data minSize p b hbp with ⟨c, hc, hok, rfl⟩ | ⟨hmin, rfl⟩
  · obtain ⟨hs0, hsp⟩ := cands_clampStart p c hc
    unfold candOk at hok
    simp only [decide_eq_true_eq] at hok
    obtain ⟨_, h2, h3⟩ := hok
    unfold candBlock
    exact mkBlock_bounds data minSize p _ _ (by omega) hs0 (by omega) (by omega) (min_le_right _ _)
  · exact mkBlock_bounds data minSize p _ _ (by omega) (le_max_left _ _) hmin (by omega) (le_refl _)

theorem peekBytes_inside (outside : Int → Byte) (buf : List Byte) (off : Int) (n : Nat)
    (h0 : 0 ≤ off) (h1 : off + (n : Int) ≤ (buf.length : Int)) :
    peekBytes outside buf off n = slice buf off.toNat n := by
  apply List.ext_getElem
  · rw [slice_length]
    simp only [peekBytes, List.length_map, List.length_range]
    omega
  · intro k hk1 hk2
    simp only [peekBytes, List.length_map, List.length_range] at hk1
    simp only [peekBytes, slice, List.getElem_map, List.getElem_range, List.getElem_take,
      List.getElem_drop]
    unfold peek
    rw [if_pos (by omega)]
    have e : (off + (k : Int)).toNat = off.toNat + k := by omega
    rw [e, List.getD_eq_getElem?_getD, List.getElem?_eq_getElem (by omega)]
    rfl

theorem find?_agree {α : Type} (f g : α → Bool) :
    ∀ l : List α, (∀ x ∈ l, f x = g x) → l.find? f = l.find? g := by
  intro l
  induction l with
  | nil => intro _; rfl
  | cons a t ih =>
    intro h
    rw [List.find?_cons, List.find?_cons, h a (List.mem_cons_self _ _),
      ih (fun x hx => h x (List.mem_cons_of_mem _ hx))]

theorem candOk_eq_spec (outside : Int → Byte) (data : List Byte) (minSize : Nat) (p : Nat)
    (hp : 0x28 ≤ p) (c : Candidate) (hc : c ∈ cands p) :
    candOk outside data minSize c = decide (specCandOk data minSize c) := by
  have hs : 0 ≤ c.sizeOff ∧ 0 ≤ c.fvStart := by
    simp only [cands, List.mem_cons, List.mem_singleton, List.not_mem_nil, or_false] at hc
    rcases hc with rfl | rfl | rfl | rfl <;> constructor <;> simp only [] <;> omega
  have hcl : clampStart c = c.fvStart := by
    unfold clampStart; rw [if_neg (by omega)]
  unfold candOk specCandOk
  rw [hcl]
  by_cases hin : c.sizeOff + 4 ≤ (data.length : Int)
  · have hv : candValue outside data c = leValue (slice data c.sizeOff.toNat 4) := by
      unfold candValue
      rw [peekBytes_inside outside data c.sizeOff 4 hs.1 (by simpa using hin)]
    rw [hv]
    apply decide_eq_decide.2
    constructor
    · rintro ⟨_, h2, h3⟩
      refine ⟨hs.1, hin, by omega, by omega, by omega, by omega⟩
    · rintro ⟨_, _, h3, h4, h5, h6⟩
      refine ⟨by omega, by omega, by omega⟩
  · apply decide_eq_decide.2
    constructor
    · rintro ⟨h1, _⟩; omega
    · rintro ⟨_, h1, _⟩; omega

theorem blockAt_fvhOffset (outside : Int → Byte) (data : List Byte) (minSize : Nat) (p : Nat)
    (b : FvhBlock) (h : blockAt outside data minSize p = some b) : b.fvhOffset = (p : Int) := by
  rcases blockAt_some outside data minSize p b h with ⟨c, _, _, rfl⟩ | ⟨_, rfl⟩
  · exact (mkBlock_fields _ _ _ _).1
  · exact (mkBlock_fields _ _ _ _).1

/-- C10, as stated, fails: in `img10` the marker is at `p = 0x28`, the first
candidate of the specification's list that satisfies the conditions is the third,
`(p - 0x10, p + 0x20)`, which would give `fvStart = 24` and `fvSize = 8`; the code
reads the third size field at `p + 0x30`, accepts no candidate and records the
fallback block with `fvStart = 0` and `fvSize = 76`. -/
theorem findBlocks_third_candidate_differs :
    markerAt img10 0x28 ∧
    (specCands 0x28).find? (fun c => decide (specCandOk img10 1 c)) =
      some { fvStart := 24, sizeOff := 72 } ∧
    (findBlocks zeroOutside img10 1).map (fun b => (b.fvhOffset, b.fvStart, b.fvSize)) =
      [(0x28, 0, 76)] := by
  decide

/-- C10, amended: for a marker at `p ≥ 0x28` the candidates are tried in the order
1: `(p - 0x28, p - 0x08)`, 2: `(p - 0x10, p + 0x10)`, 3: `(p - 0x10, p + 0x30)`,
4: `(p, p + 0x10)`; if `c` is the first of them whose size field lies inside the
buffer and whose value `v` satisfies `0 < v ≤ 128 MiB`, `v ≥ minSize` and
`min(v, len - c.fvStart) ≥ minSize`, then a block is recorded for this marker and
every block recorded for it has `fvStart = c.fvStart` and
`fvSize = min(v, len - c.fvStart)`. -/
theorem findBlocks_first_candidate (outside : Int → Byte) (data : List Byte) (minSize : Nat)
    (p : Nat) (c : Candidate) (hm : markerAt data p) (hp : 0x28 ≤ p)
    (hc : (cands p).find? (fun c => decide (specCandOk data minSize c)) = some c) :
    cands p = [ { fvStart := (p : Int) - 0x28, sizeOff := (p : Int) - 0x08 },
                { fvStart := (p : Int) - 0x10, sizeOff := (p : Int) + 0x10 },
                { fvStart := (p : Int) - 0x10, sizeOff := (p : Int) + 0x30 },
                { fvStart := (p : Int), sizeOff := (p : Int) + 0x10 } ] ∧
    (∃ b ∈ findBlocks outside data minSize, b.fvhOffset = (p : Int)) ∧
    ∀ b ∈ findBlocks outside data minSize, b.fvhOffset = (p : Int) →
      b.fvStart = c.fvStart ∧
      (b.fvSize : Int) = min (leValue (slice data c.sizeOff.toNat 4) : Int)
        ((data.length : Int) - c.fvStart) := by
  have hfind : (cands p).find? (candOk outside data minSize) = some c := by
    rw [find?_agree _ _ _ (candOk_eq_spec outside data minSize p hp)]
    exact hc
  have hblk : blockAt outside data minSize p = some (candBlock outside data p c) := by
    unfold blockAt
    rw [tryCands_eq, hfind]
    rfl
  have hcm : c ∈ cands p := List.mem_of_find?_eq_some hc
  have hok : specCandOk data minSize c := by simpa using List.find?_some hc
  obtain ⟨h0, h1, h2, h3, h4, h5⟩ := hok
  have hs : 0 ≤ c.fvStart := by
    simp only [cands, List.mem_cons, List.mem_singleton, List.not_mem_nil, or_false] at hcm
    rcases hcm with rfl | rfl | rfl | rfl <;> simp only [] <;> omega
  have hcl : clampStart c = c.fvStart := by
    unfold clampStart; rw [if_neg (by omega)]
  have hv : candValue outside data c = leValue (slice data c.sizeOff.toNat 4) := by
    unfold candValue
    rw [peekBytes_inside outside data c.sizeOff 4 h0 (by simpa using h1)]
  refine ⟨?_, ⟨candBlock outside data p c,
    (mem_findBlocks outside data minSize _).2 ⟨p, hm, hblk⟩, (mkBlock_fields _ _ _ _).1⟩, ?_⟩
  · simp only [cands]
    congr 2 <;> congr 1 <;> omega
  · intro b hb hoff
    obtain ⟨q, _, hbq⟩ := (mem_findBlocks outside data minSize b).1 hb
    have hq := blockAt_fvhOffset outside data minSize q b hbq
    have hqp : q = p := by omega
    subst hqp
    rw [hblk] at hbq
    simp only [Option.some.injEq] at hbq
    subst hbq
    unfold candBlock
    obtain ⟨_, f2, f3, _⟩ := mkBlock_fields data (q : Int) (clampStart c)
      (min (candValue outside data c : Int) ((data.length : Int) - clampStart c))
    rw [f2, f3, hcl, hv]
    refine ⟨rfl, ?_⟩
    have hb0 := markerAt_bound data q hm
    have hcp := (cands_clampStart q c hcm).2
    rw [hcl] at hcp
    rw [Int.toNat_of_nonneg (Int.emod_nonneg _ (by norm_num))]
    exact Int.emod_eq_of_lt (by omega) (by omega)

/-- Witness for C1: the block that `findBlocks` records for `img10`. -/
theorem findBlocks_block_bounds_witness :
    img10.length < 2 ^ 31 ∧ mkBlock img10 40 0 76 ∈ findBlocks zeroOutside img10 1 ∧
      (mkBlock img10 40 0 76).raw.length = (mkBlock img10 40 0 76).fvSize := by
  have hl : img10.length < 2 ^ 31 := by decide
  have hb : mkBlock img10 40 0 76 ∈ findBlocks zeroOutside img10 1 := by decide
  exact ⟨hl, hb, (findBlocks_block_bounds zeroOutside img10 1 hl _ hb).2.2.2.1⟩

/-- Witness for C10: in `img10b` the first candidate of the marker at `0x28` is
accepted. -/
theorem findBlocks_first_candidate_witness :
    markerAt img10b 40 ∧
      ∃ b ∈ findBlocks zeroOutside img10b 1, b.fvhOffset = ((40 : Nat) : Int) := by
  have hm : markerAt img10b 40 := by decide
  have hc : (cands ((40 : Nat) : Int)).find? (fun c => decide (specCandOk img10b 1 c)) =
      some { fvStart := 0, sizeOff := 32 } := by decide
  exact ⟨hm, (findBlocks_first_candidate zeroOutside img10b 1 40 _ hm (by decide) hc).2.1⟩

/-! ### `decompress` -/

/-- C6: for a block with `hasLzma == false`, `decompress` returns `block.raw`
unchanged and sets the error string to the empty string, whatever the decoders
are, and makes no call of `tryDecode`. -/
theorem decompress_passthrough (outside : Int → Byte) (alone sniff : Decoder)
    (block : FvhBlock) (errorOut : String) (h : block.hasLzma = false) :
    (decompress outside alone sniff block errorOut).payload = block.raw ∧
    (decompress outside alone sniff block errorOut).payload.length = block.raw.length ∧
    (decompress outside alone sniff block errorOut).errorOut = "" ∧
    (decompress outside alone sniff block errorOut).attempts = [] := by
  unfold decompress
  rw [if_pos (Or.inl h)]
  exact ⟨rfl, rfl, rfl, rfl⟩

/-- Witness for C6: `plainBlock` passes through. -/
theorem decompress_passthrough_witness :
    plainBlock.hasLzma = false ∧
      (decompress zeroOutside failingDecoder failingDecoder plainBlock "old").payload = [1, 2] := by
  have h : plainBlock.hasLzma = false := by decide
  exact ⟨h, (decompress_passthrough zeroOutside failingDecoder failingDecoder plainBlock "old" h).1⟩

theorem rescanLoop_log (outside : Int → Byte) (alone : Decoder) (raw : List Byte)
    (lzmaOffset : Int) (inSize outBufSize : Nat) :
    ∀ (n skip : Nat) (err : String) (log : List Attempt)
      (r : Option (List Byte) × String × List Attempt),
      rescanLoop outside alone raw lzmaOffset inSize outBufSize n skip err log = r →
      log.getLast?.map Attempt.err = some err →
      (r.2.2.getLast?.map Attempt.err = some r.2.1) ∧
      ∀ out, r.1 = some out → ∃ a ∈ r.2.2, a.output ≠ [] := by
  intro n
  induction n with
  | zero =>
    intro skip err log r hr h
    rw [rescanLoop] at hr
    subst hr
    exact ⟨h, fun out ho => by cases ho⟩
  | succ n ih =>
    intro skip err log r hr h
    rw [rescanLoop] at hr
    by_cases h1 : skip ≥ (inSize + sizeRange - 13) % sizeRange
    · rw [if_pos h1] at hr
      subst hr
      exact ⟨h, fun out ho => by cases ho⟩
    · rw [if_neg h1] at hr
      by_cases h2 : rescanAccepted outside raw (lzmaOffset + (skip : Int)) = true
      · rw [if_pos h2] at hr
        simp only [] at hr
        split_ifs at hr with h3
        · subst hr
          refine ⟨by simp, fun out _ => ⟨_, List.mem_append_right _ (List.mem_singleton_self _), h3⟩⟩
        · exact ih _ _ _ r hr (by simp)
      · rw [if_neg h2] at hr
        exact ih _ _ _ r hr h

theorem failText_append_ne (err : String) : failText ++ err ≠ "" := by
  intro h
  have h1 := congrArg String.length h
  rw [String.length_append] at h1
  have h2 : 0 < failText.length := by decide
  have h3 : "".length = 0 := rfl
  omega

/-- C7: for a block with `hasLzma == true` and `lzmaOffset ≥ 0`, if every call of
`tryDecode` that `decompress` makes (single-stream decode, format-sniffing decode,
rescan retries) yields no output, then `decompress` returns `block.raw` unmodified
(so a non-empty block never gives an empty payload), and the warning is the
non-empty text `failText` followed by the error text of the last call made. -/
theorem decompress_all_fail (outside : Int → Byte) (alone sniff : Decoder)
    (block : FvhBlock) (errorOut : String)
    (h1 : block.hasLzma = true) (h2 : 0 ≤ block.lzmaOffset)
    (hfail : ∀ a ∈ (decompress outside alone sniff block errorOut).attempts, a.output = []) :
    (decompress outside alone sniff block errorOut).payload = block.raw ∧
    (block.raw ≠ [] → (decompress outside alone sniff block errorOut).payload ≠ []) ∧
    (decompress outside alone sniff block errorOut).errorOut ≠ "" ∧
    ∃ a, (decompress outside alone sniff block errorOut).attempts.getLast? = some a ∧
      (decompress outside alone sniff block errorOut).errorOut = failText ++ a.err := by
  generalize hr : decompress outside alone sniff block errorOut = r at hfail ⊢
  unfold decompress at hr
  rw [if_neg (by rw [h1]; simp; omega)] at hr
  simp only [] at hr
  split at hr
  · rename_i h3
    subst hr
    exact absurd (hfail _ (List.mem_singleton_self _)) h3
  split at hr
  · rename_i h3 h4
    subst hr
    exact absurd (hfail _ (List.mem_cons_of_mem _ (List.mem_singleton_self _))) h4
  · split at hr
    · rename_i out e log hres
      subst hr
      obtain ⟨_, hx⟩ := rescanLoop_log _ _ _ _ _ _ _ _ _ _ _ hres (by simp)
      obtain ⟨a, ha, hne⟩ := hx out rfl
      exact absurd (hfail a ha) hne
    · rename_i e log hres
      subst hr
      obtain ⟨hl, _⟩ := rescanLoop_log _ _ _ _ _ _ _ _ _ _ _ hres (by simp)
      simp only [] at hl
      refine ⟨rfl, fun h => h, failText_append_ne e, ?_⟩
      cases hg : log.getLast? with
      | none => rw [hg] at hl; cases hl
      | some a =>
        rw [hg] at hl
        simp only [Option.map_some', Option.some.injEq] at hl
        exact ⟨a, rfl, by rw [hl]⟩

/-- Witness for C7: with decoders that always fail, `streamBlock` comes back raw,
with the warning that names the last decode error. -/
theorem decompress_all_fail_witness :
    (decompress zeroOutside failingDecoder failingDecoder streamBlock "").payload =
        streamBlock.raw ∧
      (decompress zeroOutside failingDecoder failingDecoder streamBlock "").errorOut ≠ "" := by
  have h := decompress_all_fail zeroOutside failingDecoder failingDecoder streamBlock ""
    (by decide) (by decide) (by decide)
  exact ⟨h.1, h.2.2.1⟩

/-! ### `repack` -/

theorem writeAt_some (buf : List Byte) (off : Int) (bytes r : List Byte)
    (h : writeAt buf off bytes = some r) :
    0 ≤ off ∧ off.toNat + bytes.length ≤ buf.length ∧
      r = buf.take off.toNat ++ bytes ++ buf.drop (off.toNat + bytes.length) := by
  unfold writeAt at h
  split_ifs at h with hc
  simp only [Option.some.injEq] at h
  exact ⟨hc.1, by omega, h.symm⟩

theorem writeAt_length (buf : List Byte) (off : Int) (bytes r : List Byte)
    (h : writeAt buf off bytes = some r) : r.length = buf.length := by
  obtain ⟨_, h2, rfl⟩ := writeAt_some buf off bytes r h
  simp only [List.length_append, List.length_take, List.length_drop]
  omega

theorem writeAt_frame (buf : List Byte) (off : Int) (bytes r : List Byte)
    (h : writeAt buf off bytes = some r) (i : Nat)
    (hi : i < off.toNat ∨ off.toNat + bytes.length ≤ i) : r[i]? = buf[i]? := by
  obtain ⟨_, h2, rfl⟩ := writeAt_some buf off bytes r h
  rcases hi with hi | hi
  · rw [List.append_assoc, List.getElem?_append_left (by simp; omega)]
    rw [List.getElem?_take_of_lt hi]
  · rw [List.getElem?_append_right (by simp; omega)]
    simp only [List.length_append, List.length_take, List.getElem?_drop]
    congr 1
    omega

theorem writeAt_slice (buf : List Byte) (off : Int) (bytes r : List Byte)
    (h : writeAt buf off bytes = some r) : slice r off.toNat bytes.length = bytes := by
  obtain ⟨_, h2, rfl⟩ := writeAt_some buf off bytes r h
  unfold slice
  have hl : (buf.take off.toNat).length = off.toNat := by
    rw [List.length_take]; omega
  rw [List.append_assoc, List.drop_append_of_le_length (by omega), List.drop_of_length_le (by omega)]
  simp

theorem toLE_length : ∀ (k v : Nat), (toLE k v).length = k := by
  intro k
  induction k with
  | zero => intro v; rfl
  | succ k ih => intro v; simp [toLE, ih]

theorem leValue_toLE : ∀ (k v : Nat), leValue (toLE k v) = v % 256 ^ k := by
  intro k
  induction k with
  | zero => intro v; simp [toLE, leValue, Nat.mod_one]
  | succ k ih =>
    intro v
    have hv : (Fin.ofNat (v % 256) : Fin 256).val = v % 256 := by
      simp [Fin.ofNat]
    rw [toLE, leValue, ih, hv, pow_succ', Nat.mod_mul]

theorem patchImage_some (originalData : List Byte) (block : FvhBlock) (compressed : List Byte)
    (inSize : Nat) (img : List Byte) (h : patchImage originalData block compressed inSize = some img) :
    ∃ r1 r2, writeAt originalData (patchStart block) compressed = some r1 ∧
      (if (compressed.length : Int) < block.lzmaSize then
          writeAt r1 (patchStart block + (compressed.length : Int))
            (List.replicate (block.lzmaSize - (compressed.length : Int)).toNat 0)
        else some r1) = some r2 ∧
      writeAt r2 (patchStart block + 5) (toLE 8 (inSize % sizeRange)) = some img := by
  unfold patchImage at h
  simp only [] at h
  cases h1 : writeAt originalData (block.fvStart + block.lzmaOffset) compressed with
  | none => rw [h1] at h; cases h
  | some r1 =>
    rw [h1] at h
    simp only [Option.some_bind] at h
    cases h2 : (if (compressed.length : Int) < block.lzmaSize then
          writeAt r1 (block.fvStart + block.lzmaOffset + (compressed.length : Int))
            (List.replicate (block.lzmaSize - (compressed.length : Int)).toNat 0)
        else some r1) with
    | none => rw [h2] at h; cases h
    | some r2 =>
      rw [h2] at h
      simp only [Option.some_bind] at h
      exact ⟨r1, r2, h1, h2, h⟩

theorem patchImage_length (originalData : List Byte) (block : FvhBlock) (compressed : List Byte)
    (inSize : Nat) (img : List Byte) (h : patchImage originalData block compressed inSize = some img) :
    img.length = originalData.length := by
  obtain ⟨r1, r2, h1, h2, h3⟩ := patchImage_some _ _ _ _ _ h
  have l1 := writeAt_length _ _ _ _ h1
  have l3 := writeAt_length _ _ _ _ h3
  have l2 : r2.length = r1.length := by
    split_ifs at h2
    · exact writeAt_length _ _ _ _ h2
    · simp only [Option.some.injEq] at h2; rw [h2]
  omega

theorem patchImage_inside (originalData : List Byte) (block : FvhBlock) (compressed : List Byte)
    (inSize : Nat) (img : List Byte) (hfit : (compressed.length : Int) ≤ block.lzmaSize)
    (h : patchImage originalData block compressed inSize = some img) :
    slotInside originalData block := by
  obtain ⟨r1, r2, h1, h2, h3⟩ := patchImage_some _ _ _ _ _ h
  obtain ⟨a1, a2, _⟩ := writeAt_some _ _ _ _ h1
  obtain ⟨c1, c2, _⟩ := writeAt_some _ _ _ _ h3
  have l1 := writeAt_length _ _ _ _ h1
  rw [toLE_length] at c2
  unfold slotInside
  split_ifs at h2 with hc
  · obtain ⟨b1, b2, _⟩ := writeAt_some _ _ _ _ h2
    have l2 := writeAt_length _ _ _ _ h2
    rw [List.length_replicate] at b2
    refine ⟨a1, by omega, by omega⟩
  · simp only [Option.some.injEq] at h2
    subst h2
    refine ⟨a1, by omega, by omega⟩

theorem patchImage_frame (originalData : List Byte) (block : FvhBlock) (compressed : List Byte)
    (inSize : Nat) (img : List Byte) (hfit : (compressed.length : Int) ≤ block.lzmaSize)
    (h : patchImage originalData block compressed inSize = some img) (i : Nat)
    (hslot : ¬ (patchStart block ≤ (i : Int) ∧ (i : Int) < patchStart block + block.lzmaSize))
    (hfield : ¬ (patchStart block + 5 ≤ (i : Int) ∧ (i : Int) < patchStart block + 13)) :
    img[i]? = originalData[i]? := by
  obtain ⟨r1, r2, h1, h2, h3⟩ := patchImage_some _ _ _ _ _ h
  obtain ⟨a1, a2, _⟩ := writeAt_some _ _ _ _ h1
  obtain ⟨c1, c2, _⟩ := writeAt_some _ _ _ _ h3
  rw [writeAt_frame _ _ _ _ h3 i (by rw [toLE_length]; omega)]
  have e1 : r1[i]? = originalData[i]? := writeAt_frame _ _ _ _ h1 i (by omega)
  split_ifs at h2 with hc
  · obtain ⟨b1, b2, _⟩ := writeAt_some _ _ _ _ h2
    rw [writeAt_frame _ _ _ _ h2 i (by rw [List.length_replicate]; omega), e1]
  · simp only [Option.some.injEq] at h2
    subst h2
    exact e1

theorem patchImage_sizeField (originalData : List Byte) (block : FvhBlock)
    (compressed : List Byte) (inSize : Nat) (img : List Byte)
    (h : patchImage originalData block compressed inSize = some img) :
    leValue (slice img (patchStart block + 5).toNat 8) = inSize % sizeRange := by
  obtain ⟨r1, r2, h1, h2, h3⟩ := patchImage_some _ _ _ _ _ h
  have hs := writeAt_slice _ _ _ _ h3
  rw [toLE_length] at hs
  rw [hs, leValue_toLE]
  apply Nat.mod_eq_of_lt
  have : inSize % sizeRange < sizeRange := Nat.mod_lt _ (by decide)
  have e : sizeRange = 256 ^ 8 := by decide
  omega
theorem compSizeOf_take (outside : Int → Byte) (enc : Encoder) (block : FvhBlock)
    (patchedBinary : List Byte) :
    ((encoderRun outside enc block patchedBinary).produced.take
        (compSizeOf outside enc block patchedBinary)).length =
      compSizeOf outside enc block patchedBinary := by
  rw [List.length_take]
  unfold compSizeOf
  omega

theorem string_ne_empty_of_length_pos (s : String) (h : 0 < s.length) : s ≠ "" := by
  intro e
  rw [e] at h
  exact absurd h (by decide)

/-- What a returned image tells about the run of `repack`: the compressor did its
work, the output fits, the image is the patched copy, and `errorOut` is as on
entry. -/
theorem repack_success (outside : Int → Byte) (enc : Encoder) (originalData : List Byte)
    (block : FvhBlock) (patchedBinary : List Byte) (errorOut : String)
    (img : List Byte) (e : String)
    (h : repack outside enc originalData block patchedBinary errorOut = some (img, e))
    (hne : img ≠ []) :
    encodeFits outside enc block patchedBinary ∧
    patchImage originalData block
      ((encoderRun outside enc block patchedBinary).produced.take
        (compSizeOf outside enc block patchedBinary)) patchedBinary.length = some img ∧
    e = errorOut := by
  unfold repack at h
  simp only [] at h
  split at h
  · simp only [Option.some.injEq, Prod.mk.injEq] at h
    exact absurd h.1.symm hne
  split at h
  · simp only [Option.some.injEq, Prod.mk.injEq] at h
    exact absurd h.1.symm hne
  split at h
  · simp only [Option.some.injEq, Prod.mk.injEq] at h
    exact absurd h.1.symm hne
  · rename_i h1 h2 h3
    cases hp : patchImage originalData block
      ((encoderRun outside enc block patchedBinary).produced.take
        (compSizeOf outside enc block patchedBinary)) patchedBinary.length with
    | none => rw [hp] at h; cases h
    | some r =>
      rw [hp] at h
      simp only [Option.map_some', Option.some.injEq, Prod.mk.injEq] at h
      refine ⟨⟨not_not.1 h1, not_not.1 h2, not_lt.1 h3⟩, ?_, h.2.symm⟩
      rw [h.1]

/-- C3: whenever `repack` returns an image, the length of that image equals the
length of `originalData`. -/
theorem repack_length (outside : Int → Byte) (enc : Encoder) (originalData : List Byte)
    (block : FvhBlock) (patchedBinary : List Byte) (errorOut : String)
    (img : List Byte) (e : String)
    (h : repack outside enc originalData block patchedBinary errorOut = some (img, e))
    (hne : img ≠ []) :
    img.length = originalData.length := by
  obtain ⟨_, hp, _⟩ := repack_success _ _ _ _ _ _ _ _ h hne
  exact patchImage_length _ _ _ _ _ hp

/-- C2: whenever `repack` returns an image, the image agrees with `originalData` at
every index outside the slot `[ps, ps + lzmaSize)` and outside the size field
`[ps + 5, ps + 13)`, `ps = fvStart + lzmaOffset`; the slot and the size field
lie inside `originalData`. -/
theorem repack_frame (outside : Int → Byte) (enc : Encoder) (originalData : List Byte)
    (block : FvhBlock) (patchedBinary : List Byte) (errorOut : String)
    (img : List Byte) (e : String)
    (h : repack outside enc originalData block patchedBinary errorOut = some (img, e))
    (hne : img ≠ []) :
    slotInside originalData block ∧
    ∀ i : Nat,
      ¬ (patchStart block ≤ (i : Int) ∧ (i : Int) < patchStart block + block.lzmaSize) →
      ¬ (patchStart block + 5 ≤ (i : Int) ∧ (i : Int) < patchStart block + 13) →
      img[i]? = originalData[i]? := by
  obtain ⟨⟨_, _, hfit⟩, hp, _⟩ := repack_success _ _ _ _ _ _ _ _ h hne
  rw [← compSizeOf_take] at hfit
  exact ⟨patchImage_inside _ _ _ _ _ hfit hp,
    fun i h1 h2 => patchImage_frame _ _ _ _ _ hfit hp i h1 h2⟩

/-- C5: whenever `repack` returns an image, the 8 bytes of the image at
`[ps + 5, ps + 13)`, `ps = fvStart + lzmaOffset`, read as an unsigned little-endian
integer, are exactly `len(patchedBinary)` (a length that a `size_t` holds),
whatever the compressor wrote there and whatever the field held before. -/
theorem repack_sizeField (outside : Int → Byte) (enc : Encoder) (originalData : List Byte)
    (block : FvhBlock) (patchedBinary : List Byte) (errorOut : String)
    (img : List Byte) (e : String)
    (h : repack outside enc originalData block patchedBinary errorOut = some (img, e))
    (hne : img ≠ []) (hsize : patchedBinary.length < 2 ^ 64) :
    leValue (slice img (patchStart block + 5).toNat 8) = patchedBinary.length := by
  obtain ⟨_, hp, _⟩ := repack_success _ _ _ _ _ _ _ _ h hne
  rw [patchImage_sizeField _ _ _ _ _ hp]
  exact Nat.mod_eq_of_lt hsize

theorem patchImage_isSome (originalData : List Byte) (block : FvhBlock) (compressed : List Byte)
    (inSize : Nat) (hfit : (compressed.length : Int) ≤ block.lzmaSize)
    (hslot : slotInside originalData block) :
    ∃ img, patchImage originalData block compressed inSize = some img := by
  obtain ⟨s1, s2, s3⟩ := hslot
  unfold patchStart at s1 s2 s3
  have w1 : ∃ r1, writeAt originalData (block.fvStart + block.lzmaOffset) compressed = some r1 := by
    unfold writeAt
    rw [if_pos ⟨s1, by omega⟩]
    exact ⟨_, rfl⟩
  obtain ⟨r1, h1⟩ := w1
  have l1 := writeAt_length _ _ _ _ h1
  have w2 : ∃ r2, (if (compressed.length : Int) < block.lzmaSize then
          writeAt r1 (block.fvStart + block.lzmaOffset + (compressed.length : Int))
            (List.replicate (block.lzmaSize - (compressed.length : Int)).toNat 0)
        else some r1) = some r2 := by
    split_ifs with hc
    · unfold writeAt
      rw [if_pos ⟨by omega, by rw [List.length_replicate]; omega⟩]
      exact ⟨_, rfl⟩
    · exact ⟨_, rfl⟩
  obtain ⟨r2, h2⟩ := w2
  have l2 : r2.length = r1.length := by
    split_ifs at h2
    · exact writeAt_length _ _ _ _ h2
    · simp only [Option.some.injEq] at h2; rw [h2]
  have w3 : ∃ r3, writeAt r2 (block.fvStart + block.lzmaOffset + 5)
      (toLE 8 (inSize % sizeRange)) = some r3 := by
    unfold writeAt
    rw [if_pos ⟨by omega, by rw [toLE_length]; omega⟩]
    exact ⟨_, rfl⟩
  obtain ⟨r3, h3⟩ := w3
  refine ⟨r3, ?_⟩
  unfold patchImage
  simp only []
  rw [h1, Option.some_bind, h2, Option.some_bind, h3]

/-- C4: with the compressor as a function that returns its two status codes and its
output, (1) `repack` returns an image only if the compressor initialised, ended
with the end-of-stream status and `compSize ≤ block.lzmaSize`; (2) under these
three conditions it returns an image, the error string untouched, for every block
whose slot lies inside `originalData`; (3) in every other case (init failure,
unclean finish, `compSize > block.lzmaSize`) it returns the empty buffer together
with a non-empty error message, and no patched copy exists. -/
theorem repack_outcome (outside : Int → Byte) (enc : Encoder) (originalData : List Byte)
    (block : FvhBlock) (patchedBinary : List Byte) (errorOut : String) :
    ((∃ img e, img ≠ [] ∧
        repack outside enc originalData block patchedBinary errorOut = some (img, e)) →
      encodeFits outside enc block patchedBinary) ∧
    (slotInside originalData block →
      ((∃ img, img ≠ [] ∧
          repack outside enc originalData block patchedBinary errorOut = some (img, errorOut)) ↔
        encodeFits outside enc block patchedBinary)) ∧
    (¬ encodeFits outside enc block patchedBinary →
      ∃ msg, msg ≠ "" ∧
        repack outside enc originalData block patchedBinary errorOut = some ([], msg)) := by
  refine ⟨?_, ?_, ?_⟩
  · rintro ⟨img, e, hne, h⟩
    exact (repack_success _ _ _ _ _ _ _ _ h hne).1
  · intro hslot
    constructor
    · rintro ⟨img, hne, h⟩
      exact (repack_success _ _ _ _ _ _ _ _ h hne).1
    · rintro ⟨f1, f2, f3⟩
      have hfit := f3
      rw [← compSizeOf_take] at hfit
      obtain ⟨img, hp⟩ := patchImage_isSome originalData block _ patchedBinary.length hfit hslot
      have hl := patchImage_length _ _ _ _ _ hp
      refine ⟨img, ?_, ?_⟩
      · intro hnil
        rw [hnil] at hl
        obtain ⟨s1, _, s3⟩ := hslot
        simp only [List.length_nil] at hl
        omega
      · unfold repack
        simp only []
        rw [if_neg (not_not.2 f1), if_neg (not_not.2 f2), if_neg (not_lt.2 f3), hp]
        rfl
  · intro hno
    unfold repack
    simp only []
    split
    · exact ⟨_, string_ne_empty_of_length_pos _ (by
        rw [String.length_append]
        have : 0 < "lzma_alone_encoder init failed: ".length := by decide
        omega), rfl⟩
    split
    · exact ⟨_, string_ne_empty_of_length_pos _ (by
        rw [String.length_append]
        have : 0 < "LZMA compression failed: ".length := by decide
        omega), rfl⟩
    split
    · exact ⟨_, string_ne_empty_of_length_pos _ (by
        simp only [String.length_append]
        have : 0 < "Compressed size (".length := by decide
        omega), rfl⟩
    · rename_i h1 h2 h3
      exact absurd ⟨not_not.1 h1, not_not.1 h2, not_lt.1 h3⟩ hno
/-- The run of `repack` on `img16`, `block16` and the payload `[7]`. -/
theorem repack_img16 :
    repack zeroOutside storeEncoder img16 block16 [7] "" = some (patched16, "") := by
  decide

/-- Witness for C2: the repack of `img16` leaves index 16 and beyond alone. -/
theorem repack_frame_witness :
    repack zeroOutside storeEncoder img16 block16 [7] "" = some (patched16, "") ∧
      slotInside img16 block16 := by
  have h := repack_img16
  exact ⟨h, (repack_frame zeroOutside storeEncoder img16 block16 [7] "" patched16 "" h
    (by decide)).1⟩

/-- Witness for C3: the repack of `img16` has the 16 bytes of `img16`. -/
theorem repack_length_witness :
    repack zeroOutside storeEncoder img16 block16 [7] "" = some (patched16, "") ∧
      patched16.length = img16.length := by
  have h := repack_img16
  exact ⟨h, repack_length zeroOutside storeEncoder img16 block16 [7] "" patched16 "" h
    (by decide)⟩

/-- Witness for C4: for `img16` and `block16` the store encoder fits, and an image
is returned. -/
theorem repack_outcome_witness :
    slotInside img16 block16 ∧ encodeFits zeroOutside storeEncoder block16 [7] ∧
      ∃ img, img ≠ [] ∧
        repack zeroOutside storeEncoder img16 block16 [7] "" = some (img, "") := by
  have hs : slotInside img16 block16 := by decide
  have hf : encodeFits zeroOutside storeEncoder block16 [7] := by decide
  exact ⟨hs, hf, ((repack_outcome zeroOutside storeEncoder img16 block16 [7] "").2.1 hs).2 hf⟩

/-- Witness for C5: after the repack of `img16` with a payload of one byte the size
field reads 1. -/
theorem repack_sizeField_witness :
    repack zeroOutside storeEncoder img16 block16 [7] "" = some (patched16, "") ∧
      leValue (slice patched16 (patchStart block16 + 5).toNat 8) = [(7 : Byte)].length := by
  have h := repack_img16
  exact ⟨h, repack_sizeField zeroOutside storeEncoder img16 block16 [7] "" patched16 "" h
    (by decide) (by decide)⟩

/-! ### The reads of the candidate loop -/

/-- C11 fails on the code: for the marker at position 0 of `imgEarly` the first
candidate has `sizeOff = 0 - 0x28 + 0x20 = -8`; only `fvStart` is clamped, the
guard `sizeOff + 4 > size` lets it pass, and the size field is read at offset
`-8`, eight bytes in front of the buffer. What `findBlocks` returns depends on
the bytes found there: a block of 24 bytes when they are zero, a block of 8 bytes
when they read 8. -/
theorem findBlocks_reads_before_buffer :
    markerAt imgEarly 0 ∧
    candReads zeroOutside imgEarly 1 (cands 0) = [-8, 16, 16] ∧
    candReads zeroOutside imgEarly 32768 (cands 0) = [-8, 16, 16] ∧
    (findBlocks zeroOutside imgEarly 1).map (fun b => b.fvSize) = [24] ∧
    (findBlocks strayOutside imgEarly 1).map (fun b => b.fvSize) = [8] := by
  decide

/-- When the candidate loop accepts nothing, it has read the size field of every
candidate that passed the guard `c.sizeOff + 4 > m_data.size()`, in order. -/
theorem candReads_of_none (outside : Int → Byte) (data : List Byte) (minSize : Nat)
    (pos : Int) :
    ∀ cs : List Candidate, tryCands outside data minSize pos cs = none →
      candReads outside data minSize cs =
        (cs.filter (fun c => decide (¬ (c.sizeOff + 4 > (data.length : Int))))).map
          (fun c => c.sizeOff) := by
  intro cs
  induction cs with
  | nil => intro _; rfl
  | cons c rest ih =>
    intro h
    unfold tryCands at h
    unfold candReads
    simp only [] at h ⊢
    rw [List.filter_cons]
    by_cases h1 : c.sizeOff + 4 > (data.length : Int)
    · rw [if_pos h1] at h ⊢
      rw [ih h]
      simp [h1]
    · rw [if_neg h1] at h ⊢
      have hd : decide (¬ (c.sizeOff + 4 > (data.length : Int))) = true := by simpa using h1
      rw [hd]
      by_cases h2 : leValue (peekBytes outside data c.sizeOff 4) = 0 ∨
          leValue (peekBytes outside data c.sizeOff 4) > 128 * 1024 * 1024 ∨
          leValue (peekBytes outside data c.sizeOff 4) < minSize
      · rw [if_pos h2] at h ⊢
        rw [ih h]
        rfl
      · rw [if_neg h2] at h ⊢
        by_cases h3 : min (leValue (peekBytes outside data c.sizeOff 4) : Int)
            ((data.length : Int) - (if c.fvStart < 0 then 0 else c.fvStart)) < (minSize : Int)
        · rw [if_pos h3] at h ⊢
          rw [ih h]
          rfl
        · rw [if_neg h3] at h
          cases h

theorem candReads_mem (outside : Int → Byte) (data : List Byte) (minSize : Nat) :
    ∀ (cs : List Candidate) (o : Int), o ∈ candReads outside data minSize cs →
      ∃ c ∈ cs, o = c.sizeOff ∧ c.sizeOff + 4 ≤ (data.length : Int) := by
  intro cs
  induction cs with
  | nil => intro o h; simp [candReads] at h
  | cons c rest ih =>
    intro o h
    unfold candReads at h
    simp only [] at h
    have hrest : o ∈ candReads outside data minSize rest →
        ∃ c' ∈ c :: rest, o = c'.sizeOff ∧ c'.sizeOff + 4 ≤ (data.length : Int) := by
      intro h'
      obtain ⟨c', hc', e⟩ := ih o h'
      exact ⟨c', List.mem_cons_of_mem _ hc', e⟩
    by_cases h1 : c.sizeOff + 4 > (data.length : Int)
    · rw [if_pos h1] at h
      exact hrest h
    · rw [if_neg h1] at h
      have hself : o = c.sizeOff →
          ∃ c' ∈ c :: rest, o = c'.sizeOff ∧ c'.sizeOff + 4 ≤ (data.length : Int) :=
        fun e => ⟨c, List.mem_cons_self _ _, e, by omega⟩
      by_cases h2 : leValue (peekBytes outside data c.sizeOff 4) = 0 ∨
          leValue (peekBytes outside data c.sizeOff 4) > 128 * 1024 * 1024 ∨
          leValue (peekBytes outside data c.sizeOff 4) < minSize
      · rw [if_pos h2] at h
        rcases List.mem_cons.1 h with e | h'
        · exact hself e
        · exact hrest h'
      · rw [if_neg h2] at h
        by_cases h3 : min (leValue (peekBytes outside data c.sizeOff 4) : Int)
            ((data.length : Int) - (if c.fvStart < 0 then 0 else c.fvStart)) < (minSize : Int)
        · rw [if_pos h3] at h
          rcases List.mem_cons.1 h with e | h'
          · exact hself e
          · exact hrest h'
        · rw [if_neg h3] at h
          exact hself (List.mem_singleton.1 h)

/-- For a marker at `p ≥ 8` every size-field read of the candidate loop lies inside
the buffer. -/
theorem candReads_inside (outside : Int → Byte) (data : List Byte) (minSize : Nat) (p : Nat)
    (hp : 8 ≤ p) (o : Int) (h : o ∈ candReads outside data minSize (cands p)) :
    0 ≤ o ∧ o + 4 ≤ (data.length : Int) := by
  obtain ⟨c, hc, rfl, hb⟩ := candReads_mem outside data minSize _ o h
  refine ⟨?_, hb⟩
  simp only [cands, List.mem_cons, List.mem_singleton, List.not_mem_nil, or_false] at hc
  rcases hc with rfl | rfl | rfl | rfl <;> simp only [] <;> omega

/-! ### Fallback, order of the blocks, and the stream fields -/

theorem blockAt_fallback (outside : Int → Byte) (data : List Byte) (minSize : Nat) (p : Nat)
    (hno : tryCands outside data minSize p (cands p) = none) :
    blockAt outside data minSize p =
      if (data.length : Int) - max 0 ((p : Int) - 0x28) ≥ (minSize : Int) then
        some (mkBlock data p (max 0 ((p : Int) - 0x28))
          ((data.length : Int) - max 0 ((p : Int) - 0x28)))
      else none := by
  unfold blockAt
  rw [hno]

/-- C12: for a marker at `p` for which the candidate loop accepts no candidate,
`findBlocks` records a block for this marker if and only if
`len(data) - max(0, p - 0x28) ≥ minSize`, and that block has
`fvStart = max(0, p - 0x28)` and `fvSize = len(data) - fvStart`, with no 128 MiB
cap. The image is one that the `int` scan cursor can address. -/
theorem findBlocks_fallback (outside : Int → Byte) (data : List Byte) (minSize : Nat) (p : Nat)
    (hlen : data.length < 2 ^ 31) (hm : markerAt data p)
    (hno : tryCands outside data minSize p (cands p) = none) :
    ((∃ b ∈ findBlocks outside data minSize, b.fvhOffset = (p : Int)) ↔
      (minSize : Int) ≤ (data.length : Int) - max 0 ((p : Int) - 0x28)) ∧
    ∀ b ∈ findBlocks outside data minSize, b.fvhOffset = (p : Int) →
      b.fvStart = max 0 ((p : Int) - 0x28) ∧
      (b.fvSize : Int) = (data.length : Int) - b.fvStart := by
  have hfb := blockAt_fallback outside data minSize p hno
  have hpb := markerAt_bound data p hm
  have key : ∀ b ∈ findBlocks outside data minSize, b.fvhOffset = (p : Int) →
      blockAt outside data minSize p = some b := by
    intro b hb hoff
    obtain ⟨q, _, hbq⟩ := (mem_findBlocks outside data minSize b).1 hb
    have hq := blockAt_fvhOffset outside data minSize q b hbq
    have hqp : q = p := by omega
    rw [← hqp]; exact hbq
  constructor
  · constructor
    · rintro ⟨b, hb, hoff⟩
      have h := key b hb hoff
      rw [hfb] at h
      by_contra hc
      rw [if_neg (by omega)] at h
      cases h
    · intro hge
      rw [if_pos (by omega)] at hfb
      exact ⟨_, (mem_findBlocks outside data minSize _).2 ⟨p, hm, hfb⟩, (mkBlock_fields _ _ _ _).1⟩
  · intro b hb hoff
    have h := key b hb hoff
    rw [hfb] at h
    by_cases hc : (data.length : Int) - max 0 ((p : Int) - 0x28) ≥ (minSize : Int)
    · rw [if_pos hc] at h
      simp only [Option.some.injEq] at h
      subst h
      obtain ⟨_, f2, f3, _⟩ := mkBlock_fields data (p : Int) (max 0 ((p : Int) - 0x28))
        ((data.length : Int) - max 0 ((p : Int) - 0x28))
      rw [f2, f3]
      refine ⟨rfl, ?_⟩
      rw [Int.toNat_of_nonneg (Int.emod_nonneg _ (by norm_num))]
      exact Int.emod_eq_of_lt (by omega) (by omega)
    · rw [if_neg hc] at h
      cases h

/-- Witness for C12: in `img10` no candidate of the marker at `0x28` is accepted,
and the fallback block is recorded. -/
theorem findBlocks_fallback_witness :
    markerAt img10 40 ∧ tryCands zeroOutside img10 1 ((40 : Nat) : Int) (cands ((40 : Nat) : Int)) = none ∧
      ∀ b ∈ findBlocks zeroOutside img10 1, b.fvhOffset = ((40 : Nat) : Int) →
        b.fvStart = max 0 (((40 : Nat) : Int) - 0x28) ∧
        (b.fvSize : Int) = (img10.length : Int) - b.fvStart := by
  have hm : markerAt img10 40 := by decide
  have hno : tryCands zeroOutside img10 1 ((40 : Nat) : Int) (cands ((40 : Nat) : Int)) = none := by
    decide
  exact ⟨hm, hno, (findBlocks_fallback zeroOutside img10 1 40 (by decide) hm hno).2⟩

theorem pairwise_filterMap_offsets (f : Nat → Option FvhBlock)
    (hf : ∀ p b, f p = some b → b.fvhOffset = (p : Int)) :
    ∀ l : List Nat, l.Pairwise (· < ·) →
      ((l.filterMap f).map (fun b => b.fvhOffset)).Pairwise (· < ·) := by
  intro l
  induction l with
  | nil => intro _; simp
  | cons p t ih =>
    intro h
    rw [List.pairwise_cons] at h
    rw [List.filterMap_cons]
    cases hp : f p with
    | none => exact ih h.2
    | some b =>
      simp only [List.map_cons, List.pairwise_cons]
      refine ⟨?_, ih h.2⟩
      intro x hx
      rw [List.mem_map] at hx
      obtain ⟨b', hb', rfl⟩ := hx
      rw [List.mem_filterMap] at hb'
      obtain ⟨q, hq, hfq⟩ := hb'
      rw [hf p b hp, hf q b' hfq]
      exact_mod_cast h.1 q hq

theorem hits_pairwise (data : List Byte) : (hits data).Pairwise (· < ·) := by
  unfold hits
  exact List.Pairwise.filter _ (List.pairwise_lt_range _)

/-- C13: the blocks that `findBlocks` returns have strictly increasing `fvhOffset`
values (so at most one block per marker occurrence), each `fvhOffset` is a
position at which the marker `"_FVH"` occurs in `data`, and when the marker occurs
nowhere the result is the empty list. -/
theorem findBlocks_offsets_increasing (outside : Int → Byte) (data : List Byte)
    (minSize : Nat) :
    ((findBlocks outside data minSize).map (fun b => b.fvhOffset)).Pairwise (· < ·) ∧
    (∀ b ∈ findBlocks outside data minSize, ∃ p : Nat, b.fvhOffset = (p : Int) ∧ markerAt data p) ∧
    ((∀ p, ¬ markerAt data p) → findBlocks outside data minSize = []) := by
  refine ⟨?_, ?_, ?_⟩
  · rw [findBlocks_eq_hits]
    exact pairwise_filterMap_offsets _ (blockAt_fvhOffset outside data minSize) _
      (hits_pairwise data)
  · intro b hb
    obtain ⟨p, hp, hbp⟩ := (mem_findBlocks outside data minSize b).1 hb
    exact ⟨p, blockAt_fvhOffset outside data minSize p b hbp, hp⟩
  · intro hno
    rw [List.eq_nil_iff_forall_not_mem]
    intro b hb
    obtain ⟨p, hp, _⟩ := (mem_findBlocks outside data minSize b).1 hb
    exact hno p hp

/-- Witness for C13: an image without the marker gives no block. -/
theorem findBlocks_offsets_increasing_witness :
    findBlocks zeroOutside img16 1 = [] :=
  (findBlocks_offsets_increasing zeroOutside img16 1).2.2 (by
    intro p hp
    have hb := markerAt_bound img16 p hp
    have hl : img16.length = 16 := by decide
    have : p < 13 := by omega
    revert hp
    interval_cases p <;> decide)

/-- Every block of `findBlocks` is built by `mkBlock` from a start inside the image
and a size between `minSize` and what is left of the image. -/
theorem mem_findBlocks_mkBlock (outside : Int → Byte) (data : List Byte) (minSize : Nat)
    (b : FvhBlock) (hb : b ∈ findBlocks outside data minSize) :
    ∃ (p : Nat) (s a : Int), markerAt data p ∧ b = mkBlock data p s a ∧
      0 ≤ s ∧ (minSize : Int) ≤ a ∧ 0 ≤ a ∧ a ≤ (data.length : Int) - s := by
  obtain ⟨p, hp, hbp⟩ := (mem_findBlocks outside data minSize b).1 hb
  have hpb := markerAt_bound data p hp
  rcases blockAt_some outside data minSize p b hbp with ⟨c, hc, hok, rfl⟩ | ⟨hmin, rfl⟩
  · obtain ⟨hs0, hsp⟩ := cands_clampStart p c hc
    unfold candOk at hok
    simp only [decide_eq_true_eq] at hok
    obtain ⟨_, h2, h3⟩ := hok
    exact ⟨p, _, _, hp, rfl, hs0, by omega, by omega, min_le_right _ _⟩
  · exact ⟨p, _, _, hp, rfl, le_max_left _ _, hmin, by omega, le_refl _⟩

theorem mkBlock_lzma (data : List Byte) (pos s a : Int) :
    match findLzmaStream (mkBlock data pos s a).raw with
    | none => (mkBlock data pos s a).hasLzma = false ∧ (mkBlock data pos s a).lzmaOffset = -1 ∧
        (mkBlock data pos s a).lzmaSize = 0
    | some r => (mkBlock data pos s a).hasLzma = true ∧
        (mkBlock data pos s a).lzmaOffset = r.offsetOut ∧
        (mkBlock data pos s a).lzmaSize = r.sizeOut := by
  have hraw := (mkBlock_fields data pos s a).2.2.2
  rw [hraw]
  cases h : findLzmaStream (mid data s a) with
  | none =>
    simp only []
    unfold mkBlock
    simp only [h]
    exact ⟨trivial, trivial, trivial⟩
  | some r =>
    simp only []
    unfold mkBlock
    simp only [h]
    exact ⟨trivial, trivial, trivial⟩

/-- C14: for every block that `findBlocks` returns, `hasLzma`, `lzmaOffset` and
`lzmaSize` are the result of `findLzmaStream` on the raw bytes of the block: with no
header found they are `false`, `-1` and `0`; with a header found `hasLzma` is
`true`, `0 ≤ lzmaOffset`, `lzmaSize ≥ 14`, `lzmaOffset + lzmaSize = fvSize`, and
the slot and the size field at `+5 .. +13` lie inside `data`. The image is one
that the `int` scan cursor can address. -/
theorem findBlocks_stream_fields (outside : Int → Byte) (data : List Byte) (minSize : Nat)
    (hlen : data.length < 2 ^ 31) (b : FvhBlock) (hb : b ∈ findBlocks outside data minSize) :
    match findLzmaStream b.raw with
    | none => b.hasLzma = false ∧ b.lzmaOffset = -1 ∧ b.lzmaSize = 0
    | some r => b.hasLzma = true ∧ b.lzmaOffset = r.offsetOut ∧ b.lzmaSize = r.sizeOut ∧
        0 ≤ b.lzmaOffset ∧ 14 ≤ b.lzmaSize ∧ b.lzmaOffset + b.lzmaSize = (b.fvSize : Int) ∧
        slotInside data b := by
  obtain ⟨p, s, a, _, rfl, hs, hmin, ha0, ha⟩ := mem_findBlocks_mkBlock outside data minSize b hb
  have hl := mkBlock_lzma data p s a
  obtain ⟨b1, _, b3, b4, _⟩ := mkBlock_bounds data minSize p s a (by omega) hs hmin ha0 ha
  cases h : findLzmaStream (mkBlock data p s a).raw with
  | none =>
    rw [h] at hl
    exact hl
  | some r =>
    rw [h] at hl
    simp only [] at hl ⊢
    obtain ⟨l1, l2, l3⟩ := hl
    obtain ⟨i, h1, h2, _, _, h5, _⟩ := findLzmaStream_some _ r h
    have hi := h5.1
    refine ⟨l1, l2, l3, by omega, by omega, by omega, ?_⟩
    unfold slotInside patchStart
    refine ⟨by omega, by omega, by omega⟩

/-- Witness for C14: the block of `img10` has the stream that `findLzmaStream`
reports for its raw bytes. -/
theorem findBlocks_stream_fields_witness :
    mkBlock img10 40 0 76 ∈ findBlocks zeroOutside img10 1 ∧
      slotInside img10 (mkBlock img10 40 0 76) := by
  have hb : mkBlock img10 40 0 76 ∈ findBlocks zeroOutside img10 1 := by decide
  have h := findBlocks_stream_fields zeroOutside img10 1 (by decide) _ hb
  have hf : findLzmaStream (mkBlock img10 40 0 76).raw =
      some { offsetOut := 40, sizeOut := 36,
             paramsOut := { props := [0x5F, 0x46, 0x56, 0x48, 0x00], uncompSize := 0 } } := by
    decide
  rw [hf] at h
  exact ⟨hb, h.2.2.2.2.2.2⟩

/-! ### The cascade of `decompress` -/

theorem rescanLoop_new (outside : Int → Byte) (alone : Decoder) (raw : List Byte)
    (off : Int) (inSize cap : Nat) :
    ∀ (n skip : Nat) (err : String) (log : List Attempt)
      (r : Option (List Byte) × String × List Attempt),
      rescanLoop outside alone raw off inSize cap n skip err log = r →
      ∃ new : List Attempt, r.2.2 = log ++ new ∧
        new.Pairwise (fun a b => a.skip < b.skip ∧ a.output = []) ∧
        (∀ a ∈ new, skip ≤ a.skip ∧ a.skip < skip + n ∧
          a.skip < (inSize + sizeRange - 13) % sizeRange ∧
          rescanAccepted outside raw (off + (a.skip : Int)) = true ∧
          a = { sniff := false, skip := a.skip,
                output := (tryDecode alone (peekBytes outside raw (off + (a.skip : Int))
                  ((inSize + sizeRange - a.skip) % sizeRange)) cap "").1,
                err := (tryDecode alone (peekBytes outside raw (off + (a.skip : Int))
                  ((inSize + sizeRange - a.skip) % sizeRange)) cap "").2 }) ∧
        (r.1 = none → ∀ a ∈ new, a.output = []) ∧
        (∀ out, r.1 = some out → out ≠ [] ∧ (∃ a ∈ new, a.output = out) ∧
          ∀ a ∈ new, a.output ≠ [] → a.output = out) ∧
        (∀ s, skip ≤ s → s < skip + n → s < (inSize + sizeRange - 13) % sizeRange →
          rescanAccepted outside raw (off + (s : Int)) = true →
          (∀ a ∈ new, a.skip < s → a.output = []) → ∃ a ∈ new, a.skip = s) := by
  intro n
  induction n with
  | zero =>
    intro skip err log r hr
    rw [rescanLoop] at hr
    subst hr
    refine ⟨[], by simp, List.Pairwise.nil, ?_, ?_, ?_, ?_⟩
    · intro a ha; cases ha
    · intro _ a ha; cases ha
    · intro out ho; cases ho
    · intro s h1 h2; omega
  | succ n ih =>
    intro skip err log r hr
    rw [rescanLoop] at hr
    by_cases h1 : skip ≥ (inSize + sizeRange - 13) % sizeRange
    · rw [if_pos h1] at hr
      subst hr
      refine ⟨[], by simp, List.Pairwise.nil, ?_, ?_, ?_, ?_⟩
      · intro a ha; cases ha
      · intro _ a ha; cases ha
      · intro out ho; cases ho
      · intro s h2 _ h3; omega
    · rw [if_neg h1] at hr
      by_cases h2 : rescanAccepted outside raw (off + (skip : Int)) = true
      · rw [if_pos h2] at hr
        simp only [] at hr
        split_ifs at hr with h3
        · subst hr
          refine ⟨[_], rfl, List.pairwise_singleton _ _, ?_, ?_, ?_, ?_⟩
          · intro a ha
            rw [List.mem_singleton] at ha
            subst ha
            exact ⟨le_refl _, by show skip < skip + (n + 1); omega,
              by show skip < _; omega, h2, rfl⟩
          · intro hn; cases hn
          · intro out ho
            simp only [Option.some.injEq] at ho
            subst ho
            refine ⟨h3, ⟨_, List.mem_singleton_self _, rfl⟩, ?_⟩
            intro a ha _
            rw [List.mem_singleton] at ha
            rw [ha]
          · intro s hs1 _ _ _ hprev
            by_cases hs : s = skip
            · subst hs
              exact ⟨_, List.mem_singleton_self _, rfl⟩
            · exact absurd (hprev _ (List.mem_singleton_self _) (by show skip < s; omega)) h3
        · obtain ⟨new, e1, e2, e3, e4, e5, e6⟩ := ih _ _ _ r hr
          refine ⟨Attempt.mk false skip
              (tryDecode alone (peekBytes outside raw (off + (skip : Int))
                ((inSize + sizeRange - skip) % sizeRange)) cap "").1
              (tryDecode alone (peekBytes outside raw (off + (skip : Int))
                ((inSize + sizeRange - skip) % sizeRange)) cap "").2 :: new,
            ?_, ?_, ?_, ?_, ?_, ?_⟩
          · rw [e1, List.append_assoc]; rfl
          · rw [List.pairwise_cons]
            refine ⟨?_, e2⟩
            intro b hb
            have := (e3 b hb).1
            exact ⟨by show skip < b.skip; omega, not_not.1 h3⟩
          · intro a ha
            rcases List.mem_cons.1 ha with rfl | ha
            · exact ⟨le_refl _, by show skip < skip + (n + 1); omega,
                by show skip < _; omega, h2, rfl⟩
            · obtain ⟨q1, q2, q3, q4, q5⟩ := e3 a ha
              exact ⟨by omega, by omega, q3, q4, q5⟩
          · intro hn a ha
            rcases List.mem_cons.1 ha with rfl | ha
            · exact not_not.1 h3
            · exact e4 hn a ha
          · intro out ho
            obtain ⟨o1, ⟨a, ha, o2⟩, o3⟩ := e5 out ho
            refine ⟨o1, ⟨a, List.mem_cons_of_mem _ ha, o2⟩, ?_⟩
            intro b hb hne
            rcases List.mem_cons.1 hb with rfl | hb
            · exact absurd (not_not.1 h3) hne
            · exact o3 b hb hne
          · intro s hs1 hs2 hs3 hs4 hprev
            by_cases hs : s = skip
            · subst hs
              exact ⟨_, List.mem_cons_self _ _, rfl⟩
            · obtain ⟨a, ha, hsa⟩ := e6 s (by omega) (by omega) hs3 hs4
                (fun a ha => hprev a (List.mem_cons_of_mem _ ha))
              exact ⟨a, List.mem_cons_of_mem _ ha, hsa⟩
      · rw [if_neg h2] at hr
        obtain ⟨new, e1, e2, e3, e4, e5, e6⟩ := ih _ _ _ r hr
        refine ⟨new, e1, e2, ?_, e4, e5, ?_⟩
        · intro a ha
          obtain ⟨q1, q2, q3, q4, q5⟩ := e3 a ha
          exact ⟨by omega, by omega, q3, q4, q5⟩
        · intro s hs1 hs2 hs3 hs4 hprev
          by_cases hs : s = skip
          · subst hs
            exact absurd hs4 h2
          · exact e6 s (by omega) (by omega) hs3 hs4 hprev

theorem inSizeOf_lt (block : FvhBlock) : inSizeOf block < sizeRange := by
  unfold inSizeOf
  have hpos : (0 : Int) < (sizeRange : Int) := by decide
  have h1 := Int.emod_lt_of_pos block.lzmaSize hpos
  have h2 := Int.emod_nonneg block.lzmaSize (ne_of_gt hpos)
  omega

theorem attemptOf_zero (outside : Int → Byte) (alone sniff : Decoder) (block : FvhBlock)
    (isSniff : Bool) :
    attemptOf outside alone sniff block isSniff 0 =
      { sniff := isSniff, skip := 0,
        output := (tryDecode (if isSniff then sniff else alone)
          (peekBytes outside block.raw block.lzmaOffset (inSizeOf block))
          (outBufSizeOf outside block) "").1,
        err := (tryDecode (if isSniff then sniff else alone)
          (peekBytes outside block.raw block.lzmaOffset (inSizeOf block))
          (outBufSizeOf outside block) "").2 } := by
  unfold attemptOf
  have h := inSizeOf_lt block
  have e1 : (inSizeOf block + sizeRange - 0) % sizeRange = inSizeOf block := by
    rw [Nat.sub_zero, Nat.add_mod_right, Nat.mod_eq_of_lt h]
  have e2 : block.lzmaOffset + ((0 : Nat) : Int) = block.lzmaOffset := by simp
  rw [e1, e2]

/-- The shape of what `decompress` hands back for a block with a stream: which of
the four exits of the cascade was taken. -/
theorem decompress_stream_cases (outside : Int → Byte) (alone sniff : Decoder)
    (block : FvhBlock) (errorOut : String)
    (h1 : block.hasLzma = true) (h2 : 0 ≤ block.lzmaOffset) :
    ((attemptOf outside alone sniff block false 0).output ≠ [] ∧
      decompress outside alone sniff block errorOut =
        { payload := (attemptOf outside alone sniff block false 0).output,
          errorOut := errorOut,
          attempts := [attemptOf outside alone sniff block false 0] }) ∨
    ((attemptOf outside alone sniff block false 0).output = [] ∧
      (attemptOf outside alone sniff block true 0).output ≠ [] ∧
      decompress outside alone sniff block errorOut =
        { payload := (attemptOf outside alone sniff block true 0).output,
          errorOut := errorOut,
          attempts := [attemptOf outside alone sniff block false 0,
                       attemptOf outside alone sniff block true 0] }) ∨
    ((attemptOf outside alone sniff block false 0).output = [] ∧
      (attemptOf outside alone sniff block true 0).output = [] ∧
      ∃ r, rescanLoop outside alone block.raw block.lzmaOffset (inSizeOf block)
          (outBufSizeOf outside block) 64 1 (attemptOf outside alone sniff block true 0).err
          [attemptOf outside alone sniff block false 0,
           attemptOf outside alone sniff block true 0] = r ∧
        ((∃ out, r.1 = some out ∧
            decompress outside alone sniff block errorOut =
              { payload := out, errorOut := errorOut, attempts := r.2.2 }) ∨
          (r.1 = none ∧
            decompress outside alone sniff block errorOut =
              { payload := block.raw, errorOut := failText ++ r.2.1, attempts := r.2.2 }))) := by
  rw [attemptOf_zero outside alone sniff block false, attemptOf_zero outside alone sniff block true]
  simp only [Bool.false_eq_true, if_false, if_true]
  unfold decompress inSizeOf
  rw [if_neg (by rw [h1]; simp; omega)]
  simp only []
  split
  · rename_i h3
    exact Or.inl ⟨h3, rfl⟩
  · rename_i h3
    split
    · rename_i h4
      exact Or.inr (Or.inl ⟨not_not.1 h3, h4, rfl⟩)
    · rename_i h4
      refine Or.inr (Or.inr ⟨not_not.1 h3, not_not.1 h4, _, rfl, ?_⟩)
      split
      · rename_i out e log hres
        left
        refine ⟨out, ?_, ?_⟩
        · rw [hres]
        · rw [hres]
      · rename_i e log hres
        right
        refine ⟨?_, ?_⟩
        · rw [hres]
        · rw [hres]

/-- The calls of `tryDecode` that `decompress` makes for a block with a stream:
their order, what each of them is, and how the result follows from them. -/
theorem decompress_attempts (outside : Int → Byte) (alone sniff : Decoder)
    (block : FvhBlock) (errorOut : String)
    (h1 : block.hasLzma = true) (h2 : 0 ≤ block.lzmaOffset)
    (D : DecompressResult) (hD : decompress outside alone sniff block errorOut = D) :
    D.attempts.Pairwise (fun a b => attemptRank a < attemptRank b ∧ a.output = []) ∧
    D.attempts.head? = some (attemptOf outside alone sniff block false 0) ∧
    (∀ a ∈ D.attempts, a = attemptOf outside alone sniff block a.sniff a.skip ∧ a.skip ≤ 64 ∧
      (a.sniff = true → a.skip = 0) ∧
      (1 ≤ a.skip → a.skip < (inSizeOf block + sizeRange - 13) % sizeRange ∧
        rescanAccepted outside block.raw (block.lzmaOffset + (a.skip : Int)) = true)) ∧
    (∀ a ∈ D.attempts, a.output ≠ [] → D.payload = a.output ∧ D.errorOut = errorOut) ∧
    ((∀ a ∈ D.attempts, a.output = []) → D.payload = block.raw ∧ D.errorOut ≠ "") ∧
    (∀ s, 1 ≤ s → s ≤ 64 → s < (inSizeOf block + sizeRange - 13) % sizeRange →
      rescanAccepted outside block.raw (block.lzmaOffset + (s : Int)) = true →
      (∀ a ∈ D.attempts, a.skip < s → a.output = []) → ∃ a ∈ D.attempts, a.skip = s) := by
  have m1 : ∀ (isSniff : Bool), attemptOf outside alone sniff block isSniff 0 =
        attemptOf outside alone sniff block
          (attemptOf outside alone sniff block isSniff 0).sniff
          (attemptOf outside alone sniff block isSniff 0).skip ∧
      (attemptOf outside alone sniff block isSniff 0).skip ≤ 64 ∧
      ((attemptOf outside alone sniff block isSniff 0).sniff = true →
        (attemptOf outside alone sniff block isSniff 0).skip = 0) ∧
      (1 ≤ (attemptOf outside alone sniff block isSniff 0).skip →
        (attemptOf outside alone sniff block isSniff 0).skip <
            (inSizeOf block + sizeRange - 13) % sizeRange ∧
          rescanAccepted outside block.raw (block.lzmaOffset +
            ((attemptOf outside alone sniff block isSniff 0).skip : Int)) = true) := by
    intro isSniff
    refine ⟨rfl, Nat.zero_le _, fun _ => rfl, fun h => ?_⟩
    exact absurd h (by show ¬ (1 ≤ 0); omega)
  have hs0 : ∀ (isSniff : Bool), (attemptOf outside alone sniff block isSniff 0).skip = 0 :=
    fun _ => rfl
  have rank0 : attemptRank (attemptOf outside alone sniff block false 0) = 0 := rfl
  have rank1 : attemptRank (attemptOf outside alone sniff block true 0) = 1 := rfl
  rcases decompress_stream_cases outside alone sniff block errorOut h1 h2 with
    ⟨c1, c2⟩ | ⟨c1, c2, c3⟩ | ⟨c1, c2, r, hr, c3⟩
  · rw [c2] at hD
    subst hD
    refine ⟨List.pairwise_singleton _ _, rfl, ?_, ?_, ?_, ?_⟩
    · intro a ha
      rw [List.mem_singleton] at ha
      subst ha
      exact m1 false
    · intro a ha _
      rw [List.mem_singleton] at ha
      subst ha
      exact ⟨rfl, rfl⟩
    · intro hall
      exact absurd (hall _ (List.mem_singleton_self _)) c1
    · intro s hs1 _ _ _ hprev
      exact absurd (hprev _ (List.mem_singleton_self _) (by rw [hs0]; omega)) c1
  · rw [c3] at hD
    subst hD
    have ha2 : attemptOf outside alone sniff block true 0 ∈
        [attemptOf outside alone sniff block false 0, attemptOf outside alone sniff block true 0] :=
      List.mem_cons_of_mem _ (List.mem_singleton_self _)
    refine ⟨?_, rfl, ?_, ?_, ?_, ?_⟩
    · rw [List.pairwise_cons]
      refine ⟨?_, List.pairwise_singleton _ _⟩
      intro b hb
      rw [List.mem_singleton] at hb
      subst hb
      exact ⟨by rw [rank0, rank1]; omega, c1⟩
    · intro a ha
      rcases List.mem_cons.1 ha with rfl | ha
      · exact m1 false
      · rw [List.mem_singleton] at ha
        subst ha
        exact m1 true
    · intro a ha hne
      rcases List.mem_cons.1 ha with rfl | ha
      · exact absurd c1 hne
      · rw [List.mem_singleton] at ha
        subst ha
        exact ⟨rfl, rfl⟩
    · intro hall
      exact absurd (hall _ ha2) c2
    · intro s hs1 _ _ _ hprev
      exact absurd (hprev _ ha2 (by rw [hs0]; omega)) c2
  · obtain ⟨new, e1, e2, e3, e4, e5, e6⟩ := rescanLoop_new _ _ _ _ _ _ _ _ _ _ r hr
    have hatt : D.attempts = [attemptOf outside alone sniff block false 0,
        attemptOf outside alone sniff block true 0] ++ new := by
      rcases c3 with ⟨out, _, c4⟩ | ⟨_, c4⟩
      · rw [c4] at hD; rw [← hD]; exact e1
      · rw [c4] at hD; rw [← hD]; exact e1
    have hnew : ∀ a ∈ new, a = attemptOf outside alone sniff block a.sniff a.skip ∧
        a.sniff = false ∧ 1 ≤ a.skip ∧ a.skip ≤ 64 ∧
        a.skip < (inSizeOf block + sizeRange - 13) % sizeRange ∧
        rescanAccepted outside block.raw (block.lzmaOffset + (a.skip : Int)) = true := by
      intro a ha
      obtain ⟨q1, q2, q3, q4, q5⟩ := e3 a ha
      have hsn : a.sniff = false := by rw [q5]
      refine ⟨?_, hsn, q1, by omega, q3, q4⟩
      rw [hsn]
      exact q5
    have hmem : ∀ a ∈ D.attempts, a = attemptOf outside alone sniff block false 0 ∨
        a = attemptOf outside alone sniff block true 0 ∨ a ∈ new := by
      intro a ha
      rw [hatt] at ha
      simpa using ha
    refine ⟨?_, ?_, ?_, ?_, ?_, ?_⟩
    · rw [hatt, List.pairwise_append]
      refine ⟨?_, ?_, ?_⟩
      · rw [List.pairwise_cons]
        refine ⟨?_, List.pairwise_singleton _ _⟩
        intro b hb
        rw [List.mem_singleton] at hb
        subst hb
        exact ⟨by rw [rank0, rank1]; omega, c1⟩
      · refine List.Pairwise.imp_of_mem ?_ e2
        intro a b ha hb hab
        obtain ⟨_, _, a1, _⟩ := hnew a ha
        obtain ⟨_, _, b1, _⟩ := hnew b hb
        refine ⟨?_, hab.2⟩
        unfold attemptRank
        rw [if_neg (by omega), if_neg (by omega)]
        omega
      · intro a ha b hb
        obtain ⟨_, _, b1, _⟩ := hnew b hb
        have hb2 : attemptRank b = b.skip + 1 := by
          unfold attemptRank
          rw [if_neg (by omega)]
        rcases List.mem_cons.1 ha with rfl | ha
        · refine ⟨?_, c1⟩
          rw [hb2]
          rw [rank0]
          omega
        · rw [List.mem_singleton] at ha
          subst ha
          refine ⟨?_, c2⟩
          rw [hb2]
          rw [rank1]
          omega
    · rw [hatt]; rfl
    · intro a ha
      rcases hmem a ha with rfl | rfl | ha
      · exact m1 false
      · exact m1 true
      · obtain ⟨n1, n2, n3, n4, n5, n6⟩ := hnew a ha
        exact ⟨n1, n4, fun h => (by rw [n2] at h; cases h), fun _ => ⟨n5, n6⟩⟩
    · intro a ha hne
      rcases hmem a ha with rfl | rfl | hn
      · exact absurd c1 hne
      · exact absurd c2 hne
      · rcases c3 with ⟨out, c3, c4⟩ | ⟨c3, c4⟩
        · obtain ⟨_, _, o3⟩ := e5 out c3
          have hout := o3 a hn hne
          rw [c4] at hD
          subst hD
          exact ⟨hout.symm, rfl⟩
        · exact absurd (e4 c3 a hn) hne
    · intro hall
      rcases c3 with ⟨out, c3, c4⟩ | ⟨c3, c4⟩
      · obtain ⟨o1, ⟨a, ha, o2⟩, _⟩ := e5 out c3
        have := hall a (by rw [hatt]; exact List.mem_append_right _ ha)
        rw [o2] at this
        exact absurd this o1
      · rw [c4] at hD
        subst hD
        exact ⟨rfl, failText_append_ne _⟩
    · intro s hs1 hs2 hs3 hs4 hprev
      obtain ⟨a, ha, hsa⟩ := e6 s hs1 (by omega) hs3 hs4
        (fun a ha => hprev a (by rw [hatt]; exact List.mem_append_right _ ha))
      exact ⟨a, by rw [hatt]; exact List.mem_append_right _ ha, hsa⟩

/-- C15, as stated, fails: with decoders that always fail the stream of
`streamBlock` cannot be decoded by any strategy, and `decompress` returns the 14
raw bytes of the block, not an empty buffer. -/
theorem decompress_failure_not_empty :
    (∀ a ∈ (decompress zeroOutside failingDecoder failingDecoder streamBlock "").attempts,
      a.output = []) ∧
    (decompress zeroOutside failingDecoder failingDecoder streamBlock "").payload =
      streamBlock.raw ∧
    (decompress zeroOutside failingDecoder failingDecoder streamBlock "").payload ≠ [] := by
  decide

/-- C15, amended: `decompress` returns the decompressed bytes of the attempt that
produced output, or, when no strategy decodes the stream, `block.raw` unmodified
with a non-empty warning in `errorOut`; the returned buffer is then empty only if
`block.raw` is empty. -/
theorem decompress_failure_returns_raw (outside : Int → Byte) (alone sniff : Decoder)
    (block : FvhBlock) (errorOut : String)
    (h1 : block.hasLzma = true) (h2 : 0 ≤ block.lzmaOffset) :
    (∀ a ∈ (decompress outside alone sniff block errorOut).attempts, a.output ≠ [] →
      (decompress outside alone sniff block errorOut).payload = a.output) ∧
    ((∀ a ∈ (decompress outside alone sniff block errorOut).attempts, a.output = []) →
      (decompress outside alone sniff block errorOut).payload = block.raw ∧
      ((decompress outside alone sniff block errorOut).payload = [] ↔ block.raw = []) ∧
      (decompress outside alone sniff block errorOut).errorOut ≠ "") := by
  obtain ⟨_, _, _, p4, p5, _⟩ :=
    decompress_attempts outside alone sniff block errorOut h1 h2 _ rfl
  refine ⟨fun a ha hne => (p4 a ha hne).1, fun hall => ?_⟩
  obtain ⟨q1, q2⟩ := p5 hall
  exact ⟨q1, by rw [q1], q2⟩

/-- Witness for C15: `streamBlock` with failing decoders comes back raw. -/
theorem decompress_failure_returns_raw_witness :
    streamBlock.hasLzma = true ∧ 0 ≤ streamBlock.lzmaOffset ∧
      (decompress zeroOutside failingDecoder failingDecoder streamBlock "").payload =
        streamBlock.raw := by
  have h1 : streamBlock.hasLzma = true := by decide
  have h2 : 0 ≤ streamBlock.lzmaOffset := by decide
  exact ⟨h1, h2, ((decompress_failure_returns_raw zeroOutside failingDecoder failingDecoder
    streamBlock "" h1 h2).2 (by decide)).1⟩

theorem tryDecode_output (dec : Decoder) (input : List Byte) (cap : Nat) (e : String)
    (h : (tryDecode dec input cap e).1 ≠ []) :
    (dec input cap).initRet = LZMA_OK ∧
    ((dec input cap).codeRet = LZMA_STREAM_END ∨ (dec input cap).codeRet = LZMA_OK) ∧
    (tryDecode dec input cap e).1 =
      (dec input cap).produced.take (min (dec input cap).produced.length cap) ∧
    (tryDecode dec input cap e).2 = e := by
  unfold tryDecode at h ⊢
  simp only [] at h ⊢
  by_cases c1 : (dec input cap).initRet ≠ LZMA_OK
  · rw [if_pos c1] at h
    exact absurd rfl h
  · rw [if_neg c1] at h ⊢
    by_cases c2 : (dec input cap).codeRet ≠ LZMA_STREAM_END ∧ (dec input cap).codeRet ≠ LZMA_OK
    · rw [if_pos c2] at h
      exact absurd rfl h
    · rw [if_neg c2]
      refine ⟨not_not.1 c1, ?_, rfl, rfl⟩
      by_cases c3 : (dec input cap).codeRet = LZMA_STREAM_END
      · exact Or.inl c3
      · right
        by_contra c4
        exact c2 ⟨c3, c4⟩

theorem pairwise_last_of_output {R : Attempt → Attempt → Prop} :
    ∀ (l : List Attempt), l.Pairwise (fun a b => R a b ∧ a.output = []) →
      ∀ a ∈ l, a.output ≠ [] → l.getLast? = some a := by
  intro l
  induction l with
  | nil => intro _ a ha; cases ha
  | cons x t ih =>
    intro hp a ha hne
    rw [List.pairwise_cons] at hp
    cases t with
    | nil =>
      rw [List.mem_singleton] at ha
      rw [ha]
      rfl
    | cons y t' =>
      rcases List.mem_cons.1 ha with rfl | ha'
      · exact absurd (hp.1 y (List.mem_cons_self _ _)).2 hne
      · rw [List.getLast?_cons_cons]
        exact ih hp.2 a ha' hne

/-- The rescan loop makes exactly the retries of the accepted shifts below the
bound, in ascending order, up to and including the first one that gives output,
and returns that output. -/
theorem rescanLoop_exact (outside : Int → Byte) (alone : Decoder) (raw : List Byte)
    (off : Int) (inSize cap : Nat) :
    ∀ (n skip : Nat) (err : String) (log : List Attempt)
      (r : Option (List Byte) × String × List Attempt),
      rescanLoop outside alone raw off inSize cap n skip err log = r →
      r.2.2 = log ++ untilOutput (((List.range' skip n).filter (fun s =>
          decide (s < (inSize + sizeRange - 13) % sizeRange) &&
            rescanAccepted outside raw (off + (s : Int)))).map (fun s =>
          Attempt.mk false s
            (tryDecode alone (peekBytes outside raw (off + (s : Int))
              ((inSize + sizeRange - s) % sizeRange)) cap "").1
            (tryDecode alone (peekBytes outside raw (off + (s : Int))
              ((inSize + sizeRange - s) % sizeRange)) cap "").2)) ∧
      r.1 = firstOutput (((List.range' skip n).filter (fun s =>
          decide (s < (inSize + sizeRange - 13) % sizeRange) &&
            rescanAccepted outside raw (off + (s : Int)))).map (fun s =>
          Attempt.mk false s
            (tryDecode alone (peekBytes outside raw (off + (s : Int))
              ((inSize + sizeRange - s) % sizeRange)) cap "").1
            (tryDecode alone (peekBytes outside raw (off + (s : Int))
              ((inSize + sizeRange - s) % sizeRange)) cap "").2)) := by
  intro n
  induction n with
  | zero =>
    intro skip err log r hr
    rw [rescanLoop] at hr
    subst hr
    simp [untilOutput, firstOutput]
  | succ n ih =>
    intro skip err log r hr
    rw [rescanLoop] at hr
    rw [List.range'_succ, List.filter_cons]
    by_cases h1 : skip ≥ (inSize + sizeRange - 13) % sizeRange
    · rw [if_pos h1] at hr
      subst hr
      have hP : (decide (skip < (inSize + sizeRange - 13) % sizeRange) &&
          rescanAccepted outside raw (off + (skip : Int))) = false := by
        have : decide (skip < (inSize + sizeRange - 13) % sizeRange) = false := by
          simp only [decide_eq_false_iff_not]; omega
        rw [this]; rfl
      rw [hP]
      have hnil : (List.range' (skip + 1) n).filter (fun s =>
          decide (s < (inSize + sizeRange - 13) % sizeRange) &&
            rescanAccepted outside raw (off + (s : Int))) = [] := by
        rw [List.filter_eq_nil_iff]
        intro s hs
        rw [List.mem_range'_1] at hs
        have : decide (s < (inSize + sizeRange - 13) % sizeRange) = false := by
          simp only [decide_eq_false_iff_not]; omega
        rw [this]; simp
      simp only [Bool.false_eq_true, if_false]
      rw [hnil]
      simp [untilOutput, firstOutput]
    · rw [if_neg h1] at hr
      have hd : decide (skip < (inSize + sizeRange - 13) % sizeRange) = true := by
        simp only [decide_eq_true_eq]; omega
      by_cases h2 : rescanAccepted outside raw (off + (skip : Int)) = true
      · rw [if_pos h2] at hr
        simp only [] at hr
        rw [hd, h2]
        simp only [Bool.and_self, if_true, List.map_cons]
        split_ifs at hr with h3
        · subst hr
          constructor
          · show _ = log ++ untilOutput (_ :: _)
            rw [untilOutput, if_pos h3]
          · show _ = firstOutput (_ :: _)
            unfold firstOutput
            rw [List.find?_cons]
            simp only [h3, ne_eq, not_false_eq_true, decide_True, Option.map_some']
        · obtain ⟨e1, e2⟩ := ih _ _ _ r hr
          constructor
          · rw [e1, List.append_assoc]
            show _ = log ++ untilOutput (_ :: _)
            rw [untilOutput, if_neg h3]
            rfl
          · rw [e2]
            show _ = firstOutput (_ :: _)
            unfold firstOutput
            rw [List.find?_cons]
            simp only [h3, decide_False]
      · rw [if_neg h2] at hr
        have h2' : rescanAccepted outside raw (off + (skip : Int)) = false := by
          simpa using h2
        rw [hd, h2']
        simp only [Bool.and_false, Bool.false_eq_true, if_false]
        exact ih _ _ _ r hr

/-- What `decompress` does for a block with a stream, as a whole: it makes the calls
of the cascade up to and including the first one that gives output, returns that
output with `errorOut` untouched, and returns `block.raw` when no call of the
cascade gives output. -/
theorem decompress_cascade (outside : Int → Byte) (alone sniff : Decoder)
    (block : FvhBlock) (errorOut : String)
    (h1 : block.hasLzma = true) (h2 : 0 ≤ block.lzmaOffset) :
    (decompress outside alone sniff block errorOut).attempts =
      untilOutput (cascade outside alone sniff block) ∧
    (decompress outside alone sniff block errorOut).payload =
      (firstOutput (cascade outside alone sniff block)).getD block.raw ∧
    ((firstOutput (cascade outside alone sniff block)).isSome = true →
      (decompress outside alone sniff block errorOut).errorOut = errorOut) := by
  rcases decompress_stream_cases outside alone sniff block errorOut h1 h2 with
    ⟨c1, c2⟩ | ⟨c1, c2, c3⟩ | ⟨c1, c2, r, hr, c3⟩
  · rw [c2]
    unfold cascade firstOutput
    rw [untilOutput, if_pos c1, List.find?_cons]
    simp only [c1, ne_eq, not_false_eq_true, decide_True, Option.map_some', Option.getD_some,
      Option.isSome_some, true_and, implies_true]
  · rw [c3]
    unfold cascade firstOutput
    rw [untilOutput, if_neg (not_not.2 c1), untilOutput, if_pos c2, List.find?_cons,
      List.find?_cons]
    simp only [c1, c2, ne_eq, not_true_eq_false, not_false_eq_true, decide_True, decide_False,
      Option.map_some', Option.getD_some, Option.isSome_some, true_and, implies_true]
  · obtain ⟨e1, e2⟩ := rescanLoop_exact _ _ _ _ _ _ _ _ _ _ r hr
    have hF : (fun (s : Nat) => Attempt.mk false s
        (tryDecode alone (peekBytes outside block.raw (block.lzmaOffset + (s : Int))
          ((inSizeOf block + sizeRange - s) % sizeRange)) (outBufSizeOf outside block) "").1
        (tryDecode alone (peekBytes outside block.raw (block.lzmaOffset + (s : Int))
          ((inSizeOf block + sizeRange - s) % sizeRange)) (outBufSizeOf outside block) "").2) =
        (fun s => attemptOf outside alone sniff block false s) := rfl
    rw [hF] at e1 e2
    have hc : untilOutput (cascade outside alone sniff block) =
        [attemptOf outside alone sniff block false 0, attemptOf outside alone sniff block true 0] ++
          untilOutput ((retrySkips outside block).map
            (fun s => attemptOf outside alone sniff block false s)) := by
      unfold cascade
      rw [untilOutput, if_neg (not_not.2 c1), untilOutput, if_neg (not_not.2 c2)]
      simp only [List.cons_append, List.nil_append]
    have hf : firstOutput (cascade outside alone sniff block) =
        firstOutput ((retrySkips outside block).map
          (fun s => attemptOf outside alone sniff block false s)) := by
      unfold cascade firstOutput
      rw [List.find?_cons, List.find?_cons]
      simp only [c1, c2, ne_eq, not_true_eq_false, decide_False]
    rw [hc, hf]
    have e1' : r.2.2 = [attemptOf outside alone sniff block false 0,
        attemptOf outside alone sniff block true 0] ++
          untilOutput ((retrySkips outside block).map
            (fun s => attemptOf outside alone sniff block false s)) := e1
    have e2' : r.1 = firstOutput ((retrySkips outside block).map
        (fun s => attemptOf outside alone sniff block false s)) := e2
    rcases c3 with ⟨out, c3, c4⟩ | ⟨c3, c4⟩
    · rw [c4, ← e2', c3]
      exact ⟨e1', rfl, fun _ => rfl⟩
    · rw [c4, ← e2', c3]
      refine ⟨e1', rfl, fun h => ?_⟩
      cases h

theorem mem_retrySkips (outside : Int → Byte) (block : FvhBlock) (s : Nat) :
    s ∈ retrySkips outside block ↔
      1 ≤ s ∧ s ≤ 64 ∧ s < (inSizeOf block + sizeRange - 13) % sizeRange ∧
      rescanAccepted outside block.raw (block.lzmaOffset + (s : Int)) = true := by
  unfold retrySkips
  rw [List.mem_filter, List.mem_range'_1, Bool.and_eq_true, decide_eq_true_eq]
  constructor
  · rintro ⟨⟨a, b⟩, c, d⟩
    exact ⟨a, by omega, c, d⟩
  · rintro ⟨a, b, c, d⟩
    exact ⟨⟨a, by omega⟩, c, d⟩

/-- C16: for a block with a stream `decompress` makes the calls of `tryDecode` of
the cascade, (1) single-stream decode at `lzmaOffset`, (2) format-sniffing decode
at `lzmaOffset`, (3) single-stream decode at `lzmaOffset + skip` for the shifts
`skip` of `retrySkips` in ascending order, up to and including the first call
that gives output, and no call after it: when (1) gives nothing, (2) is made, and
when all calls before a shift of `retrySkips` give nothing, the retry at that
shift is made. It returns the output of that first call, and `block.raw` when no
call of the cascade gives output. A call that gave output is the last one made,
its decoder initialised and ended with `LZMA_OK` or `LZMA_STREAM_END`, its output
is what the decoder produced, trimmed to the bytes written, and `errorOut` is left
as it was. -/
theorem decompress_first_success (outside : Int → Byte) (alone sniff : Decoder)
    (block : FvhBlock) (errorOut : String)
    (h1 : block.hasLzma = true) (h2 : 0 ≤ block.lzmaOffset) :
    (decompress outside alone sniff block errorOut).attempts.Pairwise
      (fun a b => attemptRank a < attemptRank b ∧ a.output = []) ∧
    (decompress outside alone sniff block errorOut).attempts.head? =
      some (attemptOf outside alone sniff block false 0) ∧
    (∀ a ∈ (decompress outside alone sniff block errorOut).attempts,
      a = attemptOf outside alone sniff block a.sniff a.skip ∧
      (a.sniff = true → a.skip = 0)) ∧
    (∀ a ∈ (decompress outside alone sniff block errorOut).attempts, a.output ≠ [] →
      (decompress outside alone sniff block errorOut).payload = a.output ∧
      (decompress outside alone sniff block errorOut).errorOut = errorOut ∧
      (decompress outside alone sniff block errorOut).attempts.getLast? = some a ∧
      (attemptRun outside alone sniff block a.sniff a.skip).initRet = LZMA_OK ∧
      ((attemptRun outside alone sniff block a.sniff a.skip).codeRet = LZMA_STREAM_END ∨
        (attemptRun outside alone sniff block a.sniff a.skip).codeRet = LZMA_OK) ∧
      a.output = (attemptRun outside alone sniff block a.sniff a.skip).produced.take
        (min (attemptRun outside alone sniff block a.sniff a.skip).produced.length
          (outBufSizeOf outside block))) ∧
    (decompress outside alone sniff block errorOut).attempts =
      untilOutput (cascade outside alone sniff block) ∧
    (decompress outside alone sniff block errorOut).payload =
      (firstOutput (cascade outside alone sniff block)).getD block.raw ∧
    ((firstOutput (cascade outside alone sniff block)).isSome = true →
      (decompress outside alone sniff block errorOut).errorOut = errorOut) ∧
    ((attemptOf outside alone sniff block false 0).output = [] →
      attemptOf outside alone sniff block true 0 ∈
        (decompress outside alone sniff block errorOut).attempts) ∧
    (∀ s ∈ retrySkips outside block,
      (∀ a ∈ (decompress outside alone sniff block errorOut).attempts,
        a.skip < s → a.output = []) →
      attemptOf outside alone sniff block false s ∈
        (decompress outside alone sniff block errorOut).attempts) ∧
    (∀ s, s ∈ retrySkips outside block ↔
      1 ≤ s ∧ s ≤ 64 ∧ s < (inSizeOf block + sizeRange - 13) % sizeRange ∧
      rescanAccepted outside block.raw (block.lzmaOffset + (s : Int)) = true) := by
  obtain ⟨p1, p2, p3, p4, _, p6⟩ :=
    decompress_attempts outside alone sniff block errorOut h1 h2 _ rfl
  obtain ⟨k1, k2, k3⟩ := decompress_cascade outside alone sniff block errorOut h1 h2
  refine ⟨p1, p2, fun a ha => ⟨(p3 a ha).1, (p3 a ha).2.2.1⟩, ?_, k1, k2, k3, ?_, ?_,
    mem_retrySkips outside block⟩
  · intro a ha hne
    obtain ⟨q1, q2⟩ := p4 a ha hne
    have hlast := pairwise_last_of_output _ p1 a ha hne
    have hrec := (p3 a ha).1
    have hout : a.output = (attemptOf outside alone sniff block a.sniff a.skip).output := by
      rw [← hrec]
    have hne2 : (attemptOf outside alone sniff block a.sniff a.skip).output ≠ [] := by
      rw [← hout]; exact hne
    obtain ⟨t1, t2, t3, _⟩ := tryDecode_output _ _ _ _ hne2
    refine ⟨q1, q2, hlast, t1, t2, ?_⟩
    rw [hout]
    exact t3
  · intro c1
    rw [k1]
    unfold cascade
    rw [untilOutput, if_neg (not_not.2 c1), untilOutput]
    split_ifs
    · exact List.mem_cons_of_mem _ (List.mem_singleton_self _)
    · exact List.mem_cons_of_mem _ (List.mem_cons_self _ _)
  · intro s hs hprev
    obtain ⟨s1, s2, s3, s4⟩ := (mem_retrySkips outside block s).1 hs
    obtain ⟨a, ha, hsa⟩ := p6 s s1 s2 s3 s4 hprev
    obtain ⟨q1, _, q3, _⟩ := p3 a ha
    have hsn : a.sniff = false := by
      cases hb : a.sniff with
      | false => rfl
      | true => have := q3 hb; omega
    rw [hsn, hsa] at q1
    rw [← q1]
    exact ha

/-- Witness for C16: on `streamBlock` the store decoder gives the byte after the
header at the first call, and `decompress` returns it and leaves `errorOut`
alone; when the single-stream decoder fails and the sniffing decoder stores, the
second call is made and its output is returned. -/
theorem decompress_first_success_witness :
    streamBlock.hasLzma = true ∧ 0 ≤ streamBlock.lzmaOffset ∧
      (decompress zeroOutside storeDecoder storeDecoder streamBlock "old").payload = [0] ∧
      (decompress zeroOutside storeDecoder storeDecoder streamBlock "old").errorOut = "old" ∧
      (decompress zeroOutside failingDecoder storeDecoder streamBlock "old").payload = [0] ∧
      attemptOf zeroOutside failingDecoder storeDecoder streamBlock true 0 ∈
        (decompress zeroOutside failingDecoder storeDecoder streamBlock "old").attempts := by
  have h1 : streamBlock.hasLzma = true := by decide
  have h2 : 0 ≤ streamBlock.lzmaOffset := by decide
  have h := (decompress_first_success zeroOutside storeDecoder storeDecoder
    streamBlock "old" h1 h2).2.2.2.1
    (attemptOf zeroOutside storeDecoder storeDecoder streamBlock false 0) (by decide) (by decide)
  have g := decompress_first_success zeroOutside failingDecoder storeDecoder
    streamBlock "old" h1 h2
  exact ⟨h1, h2, h.1.trans (by decide), h.2.1, g.2.2.2.2.2.1.trans (by decide),
    g.2.2.2.2.2.2.2.1 (by decide)⟩

/-! ### Buffer capacity and the rescan -/

/-- C17, as stated, fails at both ends of the range: a header that declares
`d = 0` gets the 16 MiB buffer, not `0 + 4096` bytes, and a header that declares
`d = 256 MiB` gets the 16 MiB buffer, not `256 MiB + 4096` bytes. -/
theorem outBufSizeOf_at_bounds :
    declaredSize zeroOutside zeroSizeBlock = 0 ∧
    outBufSizeOf zeroOutside zeroSizeBlock = 16777216 ∧
    declaredSize zeroOutside capSizeBlock = 256 * 1024 * 1024 ∧
    outBufSizeOf zeroOutside capSizeBlock = 16777216 := by
  decide

theorem inSizeOf_eq (block : FvhBlock) (h0 : 0 ≤ block.lzmaSize)
    (hq : block.lzmaSize < (sizeRange : Int)) : (inSizeOf block : Int) = block.lzmaSize := by
  unfold inSizeOf
  rw [Int.emod_eq_of_lt h0 hq]
  exact Int.toNat_of_nonneg h0

/-- C17, amended: for a block with a stream whose 13 header bytes lie inside
`block.raw` and declare the uncompressed size `d`, the capacity of the output
buffer that every call of `tryDecode` in `decompress` gets is `d + 4096` when `d`
is not the all-ones sentinel and `0 < d < 256 MiB`, and 16 MiB (16777216) otherwise,
in particular for `d = 0` and for `d = 256 MiB`. -/
theorem decompress_buffer_capacity (outside : Int → Byte) (alone sniff : Decoder)
    (block : FvhBlock) (errorOut : String)
    (h1 : block.hasLzma = true) (h0 : 0 ≤ block.lzmaOffset) (h13 : 13 ≤ block.lzmaSize)
    (hq : block.lzmaSize < (sizeRange : Int))
    (hin : block.lzmaOffset + 13 ≤ (block.raw.length : Int)) :
    declaredSize outside block = leValue (slice block.raw (block.lzmaOffset.toNat + 5) 8) ∧
    outBufSizeOf outside block =
      (if leValue (slice block.raw (block.lzmaOffset.toNat + 5) 8) ≠ UNKNOWN ∧
          0 < leValue (slice block.raw (block.lzmaOffset.toNat + 5) 8) ∧
          leValue (slice block.raw (block.lzmaOffset.toNat + 5) 8) < 256 * 1024 * 1024
        then leValue (slice block.raw (block.lzmaOffset.toNat + 5) 8) + 4096
        else 16777216) ∧
    ∀ a ∈ (decompress outside alone sniff block errorOut).attempts,
      a.output = (tryDecode (if a.sniff then sniff else alone)
        (peekBytes outside block.raw (block.lzmaOffset + (a.skip : Int))
          ((inSizeOf block + sizeRange - a.skip) % sizeRange))
        (outBufSizeOf outside block) "").1 := by
  have hsz := inSizeOf_eq block (by omega) hq
  have hd : declaredSize outside block =
      leValue (slice block.raw (block.lzmaOffset.toNat + 5) 8) := by
    unfold declaredSize
    simp only []
    have hge : (block.lzmaSize % (sizeRange : Int)).toNat ≥ 13 := by
      have : inSizeOf block = (block.lzmaSize % (sizeRange : Int)).toNat := rfl
      omega
    rw [if_pos hge, peekBytes_inside outside block.raw (block.lzmaOffset + 5) 8 (by omega)
      (by omega)]
    have e : (block.lzmaOffset + 5).toNat = block.lzmaOffset.toNat + 5 := by omega
    rw [e]
  refine ⟨hd, ?_, ?_⟩
  · unfold outBufSizeOf
    simp only []
    rw [hd]
    by_cases hk : leValue (slice block.raw (block.lzmaOffset.toNat + 5) 8) ≠ UNKNOWN ∧
        leValue (slice block.raw (block.lzmaOffset.toNat + 5) 8) > 0 ∧
        leValue (slice block.raw (block.lzmaOffset.toNat + 5) 8) < MAX_DECOMP_SIZE
    · have hk2 : leValue (slice block.raw (block.lzmaOffset.toNat + 5) 8) ≠ UNKNOWN ∧
          0 < leValue (slice block.raw (block.lzmaOffset.toNat + 5) 8) ∧
          leValue (slice block.raw (block.lzmaOffset.toNat + 5) 8) < 256 * 1024 * 1024 := hk
      rw [if_pos hk, if_pos hk2]
      apply Nat.mod_eq_of_lt
      have : sizeRange = 18446744073709551616 := by decide
      omega
    · have hk2 : ¬ (leValue (slice block.raw (block.lzmaOffset.toNat + 5) 8) ≠ UNKNOWN ∧
          0 < leValue (slice block.raw (block.lzmaOffset.toNat + 5) 8) ∧
          leValue (slice block.raw (block.lzmaOffset.toNat + 5) 8) < 256 * 1024 * 1024) := hk
      rw [if_neg hk, if_neg hk2]
  · intro a ha
    obtain ⟨_, _, p3, _⟩ := decompress_attempts outside alone sniff block errorOut h1 h0 _ rfl
    have hrec := (p3 a ha).1
    have : a.output = (attemptOf outside alone sniff block a.sniff a.skip).output := by
      rw [← hrec]
    exact this

/-- Witness for C17: `oneSizeBlock` declares the size 1 and gets a buffer of 4097
bytes. -/
theorem decompress_buffer_capacity_witness :
    oneSizeBlock.lzmaOffset + 13 ≤ (oneSizeBlock.raw.length : Int) ∧
      outBufSizeOf zeroOutside oneSizeBlock = 4097 := by
  have hin : oneSizeBlock.lzmaOffset + 13 ≤ (oneSizeBlock.raw.length : Int) := by decide
  have h := (decompress_buffer_capacity zeroOutside failingDecoder failingDecoder oneSizeBlock ""
    (by decide) (by decide) (by decide) (by decide) hin).2.1
  exact ⟨hin, h.trans (by decide)⟩
theorem peek_inside (outside : Int → Byte) (buf : List Byte) (i : Int)
    (h0 : 0 ≤ i) (h1 : i < (buf.length : Int)) : (peek outside buf i).val = byteAt buf i.toNat := by
  unfold peek byteAt
  rw [if_pos ⟨h0, h1⟩]

theorem rescanAccepted_iff (outside : Int → Byte) (raw : List Byte) (p : Int)
    (h0 : 0 ≤ p) (h1 : p + 5 ≤ (raw.length : Int)) :
    rescanAccepted outside raw p = true ↔ rescanHeaderPos raw p.toNat := by
  unfold rescanAccepted rescanHeaderPos
  simp only []
  rw [peek_inside outside raw p h0 (by omega),
    peekBytes_inside outside raw (p + 1) 4 (by omega) (by omega)]
  have e : (p + 1).toNat = p.toNat + 1 := by omega
  rw [e]
  constructor
  · intro h
    split_ifs at h with c1 c2 c3
    exact ⟨by omega, by omega, by omega⟩
  · rintro ⟨a, b, c⟩
    rw [if_neg (by omega), if_neg (by omega), if_neg (by omega)]

/-- C18, as stated, fails: in `rescanBlock` (the stream as `findLzmaStream` reports
it) 13 header bytes are available at `lzmaOffset + 1`, they do not satisfy the
header predicate of `findLzmaStream` (the declared size `2 ^ 56` is neither the
sentinel nor at most 512 MiB), and yet the rescan makes a decode retry at
`skip = 1`. -/
theorem rescan_retry_without_size_check :
    (findLzmaStream rescanBlock.raw).map (fun r => (r.offsetOut, r.sizeOut)) = some (0, 15) ∧
    1 + 13 ≤ rescanBlock.raw.length ∧
    ¬ validHeaderPos rescanBlock.raw 1 ∧
    (decompress zeroOutside failingDecoder failingDecoder rescanBlock "").attempts.map
      (fun a => (a.sniff, a.skip)) = [(false, 0), (true, 0), (false, 1)] := by
  decide

/-- C18, amended: for a block whose stream lies inside `block.raw` and every
`skip` in `1..64` with `skip + 13 < lzmaSize` (the 13 header bytes at
`lzmaOffset + skip` and at least one byte more), provided every call made at a
smaller shift gave no output, a decode retry is made at `lzmaOffset + skip` if and
only if the bytes there have props at most 224 and a dictionary size in
`[4096, 256 MiB]`; the declared uncompressed size there is not checked. The retry
is a single-stream decode. -/
theorem decompress_retry_iff (outside : Int → Byte) (alone sniff : Decoder)
    (block : FvhBlock) (errorOut : String) (s : Nat)
    (h1 : block.hasLzma = true) (h2 : 0 ≤ block.lzmaOffset)
    (hq : block.lzmaSize < (sizeRange : Int))
    (hin : block.lzmaOffset + block.lzmaSize ≤ (block.raw.length : Int))
    (hs1 : 1 ≤ s) (hs2 : s ≤ 64) (hs3 : (s : Int) + 13 < block.lzmaSize)
    (hreach : ∀ a ∈ (decompress outside alone sniff block errorOut).attempts,
      a.skip < s → a.output = []) :
    ((∃ a ∈ (decompress outside alone sniff block errorOut).attempts, a.skip = s) ↔
      rescanHeaderPos block.raw (block.lzmaOffset.toNat + s)) ∧
    ∀ a ∈ (decompress outside alone sniff block errorOut).attempts, a.skip = s →
      a = attemptOf outside alone sniff block false s := by
  obtain ⟨_, _, p3, _, _, p6⟩ :=
    decompress_attempts outside alone sniff block errorOut h1 h2 _ rfl
  have hsz := inSizeOf_eq block (by omega) hq
  have hlt := inSizeOf_lt block
  have hbound : (inSizeOf block + sizeRange - 13) % sizeRange = inSizeOf block - 13 := by
    have e : inSizeOf block + sizeRange - 13 = (inSizeOf block - 13) + sizeRange := by omega
    rw [e, Nat.add_mod_right, Nat.mod_eq_of_lt (by omega)]
  have hacc : rescanAccepted outside block.raw (block.lzmaOffset + (s : Int)) = true ↔
      rescanHeaderPos block.raw (block.lzmaOffset.toNat + s) := by
    rw [rescanAccepted_iff outside block.raw _ (by omega) (by omega)]
    have e : (block.lzmaOffset + (s : Int)).toNat = block.lzmaOffset.toNat + s := by omega
    rw [e]
  constructor
  · constructor
    · rintro ⟨a, ha, hsa⟩
      have := ((p3 a ha).2.2.2 (by omega)).2
      rw [hsa] at this
      exact hacc.1 this
    · intro hh
      exact p6 s hs1 hs2 (by rw [hbound]; omega) (hacc.2 hh) hreach
  · intro a ha hsa
    obtain ⟨q1, _, q3, _⟩ := p3 a ha
    have hsn : a.sniff = false := by
      cases hb : a.sniff with
      | false => rfl
      | true => have := q3 hb; omega
    rw [hsn, hsa] at q1
    exact q1

/-- Witness for C18: in `rescanBlock` with failing decoders the retry at
`skip = 1` is made, and the bytes at offset 1 pass the rescan checks. -/
theorem decompress_retry_iff_witness :
    rescanHeaderPos rescanBlock.raw (rescanBlock.lzmaOffset.toNat + 1) ∧
      ∃ a ∈ (decompress zeroOutside failingDecoder failingDecoder rescanBlock "").attempts,
        a.skip = 1 := by
  have hh : rescanHeaderPos rescanBlock.raw (rescanBlock.lzmaOffset.toNat + 1) := by decide
  exact ⟨hh, (decompress_retry_iff zeroOutside failingDecoder failingDecoder rescanBlock "" 1
    (by decide) (by decide) (by decide) (by decide) (by decide) (by decide) (by decide)
    (by decide)).1.2 hh⟩

/-! ### The slot after `repack`, and the options of the compressor -/

theorem writeAt_content (buf : List Byte) (off : Int) (bytes r : List Byte)
    (h : writeAt buf off bytes = some r) (k : Nat) (hk : k < bytes.length) :
    r[off.toNat + k]? = bytes[k]? := by
  obtain ⟨_, h2, rfl⟩ := writeAt_some buf off bytes r h
  have hl : (buf.take off.toNat).length = off.toNat := by
    rw [List.length_take]; omega
  rw [List.getElem?_append_left (by rw [List.length_append, hl]; omega),
    List.getElem?_append_right (by rw [hl]; omega), hl]
  congr 1
  omega

theorem patchImage_contents (originalData : List Byte) (block : FvhBlock)
    (compressed : List Byte) (inSize : Nat) (img : List Byte)
    (hfit : (compressed.length : Int) ≤ block.lzmaSize) (h13 : 13 ≤ compressed.length)
    (h : patchImage originalData block compressed inSize = some img) :
    (∀ i, i < compressed.length → ¬ (5 ≤ i ∧ i < 13) →
      img[(patchStart block).toNat + i]? = compressed[i]?) ∧
    (∀ i, compressed.length ≤ i → (i : Int) < block.lzmaSize →
      img[(patchStart block).toNat + i]? = some 0) := by
  obtain ⟨r1, r2, w1, w2, w3⟩ := patchImage_some _ _ _ _ _ h
  obtain ⟨a1, a2, _⟩ := writeAt_some _ _ _ _ w1
  obtain ⟨c1, c2, _⟩ := writeAt_some _ _ _ _ w3
  have e5 : (patchStart block + 5).toNat = (patchStart block).toNat + 5 := by omega
  have f3 : ∀ i, ¬ (5 ≤ i ∧ i < 13) →
      img[(patchStart block).toNat + i]? = r2[(patchStart block).toNat + i]? := by
    intro i hi
    exact writeAt_frame _ _ _ _ w3 _ (by rw [toLE_length, e5]; omega)
  constructor
  · intro i hi hno
    rw [f3 i hno]
    have g1 : r1[(patchStart block).toNat + i]? = compressed[i]? :=
      writeAt_content _ _ _ _ w1 i hi
    split_ifs at w2 with hc
    · have en : (patchStart block + (compressed.length : Int)).toNat =
          (patchStart block).toNat + compressed.length := by omega
      rw [writeAt_frame _ _ _ _ w2 _ (by rw [en]; omega), g1]
    · simp only [Option.some.injEq] at w2
      rw [← w2, g1]
  · intro i hi1 hi2
    rw [f3 i (by omega)]
    split_ifs at w2 with hc
    · have en : (patchStart block + (compressed.length : Int)).toNat =
          (patchStart block).toNat + compressed.length := by omega
      have hk : i - compressed.length <
          (List.replicate (block.lzmaSize - (compressed.length : Int)).toNat (0 : Byte)).length := by
        rw [List.length_replicate]; omega
      have g2 := writeAt_content _ _ _ _ w2 (i - compressed.length) hk
      rw [en] at g2
      have ei : (patchStart block).toNat + compressed.length + (i - compressed.length) =
          (patchStart block).toNat + i := by omega
      rw [ei] at g2
      rw [g2, List.getElem?_replicate]
      rw [List.length_replicate] at hk
      rw [if_pos hk]
    · omega

/-- C19: whenever `repack` returns an image and the compressor output `c` has
length `n ≥ 13` (`n ≤ lzmaSize` holds on success), the image holds `c[i]` at index
`ps + i` for every `i < n` outside the size field `[5, 13)`, and the byte `0x00`
at every index `ps + i` with `n ≤ i < lzmaSize`, `ps = fvStart + lzmaOffset`. -/
theorem repack_slot_contents (outside : Int → Byte) (enc : Encoder) (originalData : List Byte)
    (block : FvhBlock) (patchedBinary : List Byte) (errorOut : String)
    (img : List Byte) (e : String)
    (h : repack outside enc originalData block patchedBinary errorOut = some (img, e))
    (hne : img ≠ []) (h13 : 13 ≤ compSizeOf outside enc block patchedBinary) :
    (compSizeOf outside enc block patchedBinary : Int) ≤ block.lzmaSize ∧
    (∀ i, i < compSizeOf outside enc block patchedBinary → ¬ (5 ≤ i ∧ i < 13) →
      img[(patchStart block).toNat + i]? =
        ((encoderRun outside enc block patchedBinary).produced.take
          (compSizeOf outside enc block patchedBinary))[i]?) ∧
    (∀ i, compSizeOf outside enc block patchedBinary ≤ i → (i : Int) < block.lzmaSize →
      img[(patchStart block).toNat + i]? = some 0) := by
  obtain ⟨⟨_, _, hfit⟩, hp, _⟩ := repack_success _ _ _ _ _ _ _ _ h hne
  have hlen := compSizeOf_take outside enc block patchedBinary
  have hfit2 := hfit
  rw [← hlen] at hfit2
  have h13b := h13
  rw [← hlen] at h13b
  obtain ⟨k1, k2⟩ := patchImage_contents _ _ _ _ _ hfit2 h13b hp
  rw [hlen] at k1 k2
  exact ⟨hfit, k1, k2⟩

/-- Witness for C19: in the repack of `img16` the two bytes after the 14 bytes of
compressor output are zero. -/
theorem repack_slot_contents_witness :
    repack zeroOutside storeEncoder img16 block16 [7] "" = some (patched16, "") ∧
      patched16[(patchStart block16).toNat + 14]? = some 0 := by
  have h := repack_img16
  exact ⟨h, (repack_slot_contents zeroOutside storeEncoder img16 block16 [7] "" patched16 "" h
    (by decide) (by decide)).2.2 14 (by decide) (by decide)⟩

/-- A block of `findBlocks` with `hasLzma == true` carries the offset that
`findLzmaStream` accepted in its raw bytes. -/
theorem findBlocks_stream_header (outside : Int → Byte) (data : List Byte) (minSize : Nat)
    (b : FvhBlock) (hb : b ∈ findBlocks outside data minSize) (hl : b.hasLzma = true) :
    ∃ i : Nat, b.lzmaOffset = (i : Int) ∧ scannedHeaderPos b.raw i := by
  obtain ⟨p, s, a, _, rfl, _⟩ := mem_findBlocks_mkBlock outside data minSize b hb
  have hm := mkBlock_lzma data p s a
  cases h : findLzmaStream (mkBlock data p s a).raw with
  | none =>
    rw [h] at hm
    simp only [] at hm
    rw [hm.1] at hl
    cases hl
  | some r =>
    rw [h] at hm
    simp only [] at hm
    obtain ⟨i, h1, _, _, _, h5, _⟩ := findLzmaStream_some _ r h
    exact ⟨i, by rw [hm.2.1, h1], h5⟩

/-- C20: for every block that `findBlocks` returns with `hasLzma == true`, the
options that `repack` passes to the compressor are read from the header bytes
`raw[lzmaOffset .. lzmaOffset + 5)` alone, whatever the payload, the image and the
memory around the buffer are: `lc = h[0] mod 9`, `lp = (h[0] div 9) mod 5`,
`pb = h[0] div 45`, dictionary size the little-endian value of `h[1..5)`; and they
satisfy `lc ≤ 8`, `lp ≤ 4`, `pb ≤ 4`, `4096 ≤ dictSize ≤ 256 MiB`. -/
theorem repack_options_from_header (outside : Int → Byte) (data : List Byte) (minSize : Nat)
    (b : FvhBlock) (hb : b ∈ findBlocks outside data minSize) (hl : b.hasLzma = true)
    (mem : Int → Byte) (enc : Encoder) (patchedBinary : List Byte) :
    0 ≤ b.lzmaOffset ∧ b.lzmaOffset + 5 ≤ (b.raw.length : Int) ∧
    repackOptions mem b =
      { lc := byteAt b.raw b.lzmaOffset.toNat % 9
        lp := byteAt b.raw b.lzmaOffset.toNat / 9 % 5
        pb := byteAt b.raw b.lzmaOffset.toNat / 45
        dictSize := leValue (slice b.raw (b.lzmaOffset.toNat + 1) 4) } ∧
    encoderRun mem enc b patchedBinary =
      enc (repackOptions mem b) patchedBinary
        (patchedBinary.length + patchedBinary.length / 2 + 65536) ∧
    (repackOptions mem b).lc ≤ 8 ∧ (repackOptions mem b).lp ≤ 4 ∧
    (repackOptions mem b).pb ≤ 4 ∧
    4096 ≤ (repackOptions mem b).dictSize ∧
    (repackOptions mem b).dictSize ≤ 256 * 1024 * 1024 := by
  obtain ⟨i, hi, hbound, hprops, hd1, hd2, _⟩ :=
    findBlocks_stream_header outside data minSize b hb hl
  have ei : b.lzmaOffset.toNat = i := by omega
  have hopt : repackOptions mem b =
      { lc := byteAt b.raw b.lzmaOffset.toNat % 9
        lp := byteAt b.raw b.lzmaOffset.toNat / 9 % 5
        pb := byteAt b.raw b.lzmaOffset.toNat / 45
        dictSize := leValue (slice b.raw (b.lzmaOffset.toNat + 1) 4) } := by
    unfold repackOptions
    simp only []
    rw [peek_inside mem b.raw b.lzmaOffset (by omega) (by omega),
      peekBytes_inside mem b.raw (b.lzmaOffset + 1) 4 (by omega) (by omega)]
    have e1 : (b.lzmaOffset + 1).toNat = b.lzmaOffset.toNat + 1 := by omega
    rw [e1, Nat.div_div_eq_div_mul]
  refine ⟨by omega, by omega, hopt, rfl, ?_⟩
  rw [hopt, ei]
  simp only []
  refine ⟨by omega, by omega, by omega, hd1, hd2⟩

/-- Witness for C20: the block of `img10` has a stream, and its options are in
range. -/
theorem repack_options_from_header_witness :
    mkBlock img10 40 0 76 ∈ findBlocks zeroOutside img10 1 ∧
      (repackOptions zeroOutside (mkBlock img10 40 0 76)).lc ≤ 8 := by
  have hb : mkBlock img10 40 0 76 ∈ findBlocks zeroOutside img10 1 := by decide
  exact ⟨hb, (repack_options_from_header zeroOutside img10 1 _ hb (by decide) zeroOutside
    storeEncoder [7]).2.2.2.2.1⟩

/-! ### The props byte -/

/-- C21: for every byte value `props`, with `lc = props mod 9`,
`lp = (props div 9) mod 5` and `pb = props div 45` (the value of
`(props / 9) / 5`): `props ≤ 224` holds if and only if `pb ≤ 4`, `lp ≤ 4` and
`lc ≤ 8`, and `(pb * 5 + lp) * 9 + lc = props`. So the second range check never
rejects what passed the first: `findLzmaStream` and the rescan accept exactly what
they would accept without it, and `repack` passes these three fields on. -/
theorem props_decomposition (props : Byte) :
    propsPb props.val = props.val / 45 ∧
    (props.val ≤ 224 ↔
      propsPb props.val ≤ 4 ∧ propsLp props.val ≤ 4 ∧ propsLc props.val ≤ 8) ∧
    (propsPb props.val * 5 + propsLp props.val) * 9 + propsLc props.val = props.val ∧
    (∀ (d : List Byte) (i : Nat), headerAccepted d i =
      (if byteAt d i > 224 then false else
       if leValue (slice d (i + 1) 4) < 4096 ∨ leValue (slice d (i + 1) 4) > 256 * 1024 * 1024
         then false else
       if leValue (slice d (i + 5) 8) ≠ UNKNOWN ∧ leValue (slice d (i + 5) 8) > 512 * 1024 * 1024
         then false else true)) ∧
    (∀ (outside : Int → Byte) (raw : List Byte) (p : Int), rescanAccepted outside raw p =
      (if (peek outside raw p).val > 224 then false else
       if leValue (peekBytes outside raw (p + 1) 4) < 4096 ∨
          leValue (peekBytes outside raw (p + 1) 4) > 256 * 1024 * 1024
         then false else true)) ∧
    (∀ (outside : Int → Byte) (block : FvhBlock),
      (repackOptions outside block).lc = propsLc (peek outside block.raw block.lzmaOffset).val ∧
      (repackOptions outside block).lp = propsLp (peek outside block.raw block.lzmaOffset).val ∧
      (repackOptions outside block).pb = propsPb (peek outside block.raw block.lzmaOffset).val) := by
  have hp : props.val < 256 := props.isLt
  unfold propsPb propsLp propsLc
  refine ⟨by omega, ⟨fun h => ⟨by omega, by omega, by omega⟩, fun h => by omega⟩, by omega,
    ?_, ?_, ?_⟩
  · intro d i
    unfold headerAccepted
    simp only []
    by_cases h1 : byteAt d i > 224
    · rw [if_pos h1, if_pos h1]
    · rw [if_neg h1, if_neg h1, if_neg (by omega)]
  · intro outside raw p
    unfold rescanAccepted
    simp only []
    by_cases h1 : (peek outside raw p).val > 224
    · rw [if_pos h1, if_pos h1]
    · rw [if_neg h1, if_neg h1, if_neg (by omega)]
  · intro outside block
    exact ⟨rfl, rfl, rfl⟩

/-! ### Indices used by `repack` and by `tryDecode` -/

/-- The options that `repack` derives depend on the memory at the indices of
`repackReads` and on nothing else. -/
theorem repackOptions_reads (o1 o2 : Int → Byte) (block : FvhBlock)
    (h : ∀ i ∈ repackReads block, peek o1 block.raw i = peek o2 block.raw i) :
    repackOptions o1 block = repackOptions o2 block := by
  have h0 : peek o1 block.raw block.lzmaOffset = peek o2 block.raw block.lzmaOffset := by
    apply h
    unfold repackReads
    rw [List.mem_map]
    exact ⟨0, List.mem_range.2 (by omega), by simp⟩
  have h1 : peekBytes o1 block.raw (block.lzmaOffset + 1) 4 =
      peekBytes o2 block.raw (block.lzmaOffset + 1) 4 := by
    unfold peekBytes
    apply List.map_congr_left
    intro k hk
    rw [List.mem_range] at hk
    apply h
    unfold repackReads
    rw [List.mem_map]
    exact ⟨k + 1, List.mem_range.2 (by omega), by push_cast; ring⟩
  unfold repackOptions
  simp only []
  rw [h0, h1]

/-- C22 fails on the code: `findBlocks` returns for `imgNoStream` a block without a
stream (`hasLzma == false`, `lzmaOffset == -1`, `lzmaSize == 0`); `repack` does not
test `hasLzma` and reads the header through `raw.constData() - 1`, that is at the
indices `-1, 0, 1, 2, 3`, the first of them in front of `block.raw`. The options
handed to the compressor depend on the byte found there. The block is rejected
afterwards, because the compressed size exceeds the slot of 0 bytes. -/
theorem repack_reads_before_raw :
    mkBlock imgNoStream 8 0 32 ∈ findBlocks zeroOutside imgNoStream 1 ∧
    (mkBlock imgNoStream 8 0 32).hasLzma = false ∧
    (mkBlock imgNoStream 8 0 32).lzmaOffset = -1 ∧
    (mkBlock imgNoStream 8 0 32).lzmaSize = 0 ∧
    repackReads (mkBlock imgNoStream 8 0 32) = [-1, 0, 1, 2, 3] ∧
    (repackOptions zeroOutside (mkBlock imgNoStream 8 0 32)).pb = 0 ∧
    (repackOptions propsOutside (mkBlock imgNoStream 8 0 32)).pb = 2 ∧
    repack zeroOutside storeEncoder imgNoStream (mkBlock imgNoStream 8 0 32) [7] "" =
      some ([], "Compressed size (14 bytes) exceeds original LZMA slot (0 bytes). " ++
        "Patched binary is too large.") := by
  decide

/-- For a block of `findBlocks` with a stream the five header bytes that `repack`
reads lie inside `block.raw`, and the writes of the patch step stay inside the
image copy: `repack` has a defined result. -/
theorem repack_stream_block_in_range (outside : Int → Byte) (data : List Byte) (minSize : Nat)
    (hlen : data.length < 2 ^ 31) (b : FvhBlock) (hb : b ∈ findBlocks outside data minSize)
    (hl : b.hasLzma = true) (mem : Int → Byte) (enc : Encoder) (patchedBinary : List Byte)
    (errorOut : String) :
    (∀ i ∈ repackReads b, 0 ≤ i ∧ i < (b.raw.length : Int)) ∧
    repack mem enc data b patchedBinary errorOut ≠ none := by
  obtain ⟨i, hi, hbound, _⟩ := findBlocks_stream_header outside data minSize b hb hl
  constructor
  · intro j hj
    unfold repackReads at hj
    rw [List.mem_map] at hj
    obtain ⟨k, hk, rfl⟩ := hj
    rw [List.mem_range] at hk
    omega
  · have hslot : slotInside data b := by
      obtain ⟨p, s, a, _, rfl, hs, hmin, ha0, ha⟩ :=
        mem_findBlocks_mkBlock outside data minSize b hb
      have hm := mkBlock_lzma data p s a
      obtain ⟨_, _, b3, b4, _⟩ := mkBlock_bounds data minSize p s a (by omega) hs hmin ha0 ha
      cases h : findLzmaStream (mkBlock data p s a).raw with
      | none =>
        rw [h] at hm
        simp only [] at hm
        rw [hm.1] at hl
        cases hl
      | some r =>
        rw [h] at hm
        simp only [] at hm
        obtain ⟨l1, l2, l3⟩ := hm
        obtain ⟨i', h1, h2, _, _, h5, _⟩ := findLzmaStream_some _ r h
        have hi' := h5.1
        unfold slotInside patchStart
        refine ⟨by omega, by omega, by omega⟩
    unfold repack
    simp only []
    split
    · simp
    split
    · simp
    split
    · simp
    · rename_i h1 h2 h3
      have hfit : (((encoderRun mem enc b patchedBinary).produced.take
          (compSizeOf mem enc b patchedBinary)).length : Int) ≤ b.lzmaSize := by
        rw [compSizeOf_take]
        exact not_lt.1 h3
      obtain ⟨img, hp⟩ := patchImage_isSome data b _ patchedBinary.length hfit hslot
      rw [hp]
      simp

/-- C23 fails on the code: the table `errNames` has 8 entries, so its indices are
`0..7`; the status 8 (`LZMA_OPTIONS_ERROR`) is none of the two success codes, the
guard `ret >= 1 && ret <= 8` selects the table for it, and the lookup
`errNames[8]` is one past the end of the table. -/
theorem errNames_index_past_table :
    errNames.length = 8 ∧
    (8 : Int) ≠ LZMA_OK ∧ (8 : Int) ≠ LZMA_STREAM_END ∧
    errNameFromTable 8 = true ∧
    ¬ ((8 : Int).toNat < errNames.length) ∧
    errNames[(8 : Int).toNat]? = none ∧
    (tryDecode optionsErrorDecoder [] 16 "").1 = [] := by
  decide

/-- For every status that the guard sends to the table, except 8, the index lies
inside the table; every status that the guard does not send to the table gets the
name `"UNKNOWN"`. -/
theorem errName_lookup (ret : Int) :
    (errNameFromTable ret = true → ret ≠ 8 → ret.toNat < errNames.length) ∧
    (errNameFromTable ret = false → errNameOf ret = "UNKNOWN") := by
  constructor
  · intro h hne
    unfold errNameFromTable at h
    simp only [decide_eq_true_eq] at h
    have hl : errNames.length = 8 := by decide
    omega
  · intro h
    unfold errNameOf
    rw [h]
    rfl

end AblTool
